import Mathlib

/-!
Verification of the caching layer of `prc.api-py` (`src/prc/utility/cache.py`).

The two Python classes `Cache` (keyed, an `OrderedDict` plus a timestamp
`dict`) and `KeylessCache` (a `deque` of values, a parallel `deque` of
timestamps, and a membership `set`) are embedded as Lean structures over
association lists and plain lists.  Wall-clock time (Python `time()`) is
threaded explicitly as an integer `now` argument.  Operations that can raise
in Python (`OrderedDict.popitem` / `deque.popleft` on an empty container,
`next` on an exhausted generator) return `Option`, with `none` marking the
raised exception; all other operations are total, as in the source.
-/

namespace PRC

variable {K V β : Type}

/-! ### Dictionary primitives (Python `dict` / `OrderedDict` on association lists)

A Python `dict` holds at most one entry per key, so popping a key is modelled
as filtering out every entry with that key, and assignment as an in-place map
over the (unique) entry with that key.
-/

/-- Boolean key test for association-list entries. -/
def keyIs [DecidableEq K] (k : K) (p : K × β) : Bool := decide (p.1 = k)

/-- Embeds `d.get(k)` / `d[k]`: value of the first entry whose key is `k`. -/
def alookup [DecidableEq K] (k : K) (l : List (K × β)) : Option β :=
  (l.find? (keyIs k)).map Prod.snd

/-- Embeds `k in d`: key containment test of a Python dict. -/
def hasKey [DecidableEq K] (k : K) (l : List (K × β)) : Bool :=
  (l.find? (keyIs k)).isSome

/-- Embeds `d.pop(k, None)`: remove the entry with key `k` if present. -/
def popKey [DecidableEq K] (k : K) (l : List (K × β)) : List (K × β) :=
  l.filter (fun p => decide (p.1 ≠ k))

/-- Embeds `d[k] = b`: update the entry with key `k` in place, appending if absent. -/
def dset [DecidableEq K] (k : K) (b : β) (l : List (K × β)) : List (K × β) :=
  if hasKey k l then l.map (fun p => if p.1 = k then (k, b) else p)
  else l ++ [(k, b)]

/-- Embeds `od.move_to_end(k)`: move the entry with key `k` to the freshest end.
Guarded by `k in od` at every call site; on a missing key it is the
identity. -/
def odMoveToEnd [DecidableEq K] (k : K) (l : List (K × β)) : List (K × β) :=
  match l.find? (keyIs k) with
  | some e => popKey k l ++ [e]
  | none => l

/-! ### The keyed cache (`class Cache`, cache.py lines 11-84) -/

/-- State of `Cache`: configuration plus `_cache` (an `OrderedDict`, oldest
entry first) and `_timestamps` (a `dict`). -/
structure Cache (K V : Type) where
  maxSize : Int
  ttl : Option Int
  unique : Bool
  cache : List (K × V)
  timestamps : List (K × Int)
deriving DecidableEq

/-- Embeds `Cache.__init__` (lines 12-23).  `self.ttl = ttl or None`: a `ttl` of `0`
is falsy in Python and is stored as `None` (expiry disabled). -/
def Cache.init (maxSize : Int) (ttl : Option Int) (unique : Bool) : Cache K V :=
  { maxSize := maxSize
    ttl := if ttl = some 0 then none else ttl
    unique := unique
    cache := []
    timestamps := [] }

/-- Embeds `Cache._is_expired` (lines 25-29): `now - self._timestamps.get(key, 0) > self.ttl`. -/
def Cache.isExpired [DecidableEq K] (c : Cache K V) (key : K) (now : Int) : Bool :=
  match c.ttl with
  | none => false
  | some t => decide (now - (alookup key c.timestamps).getD 0 > t)

/-- Embeds `Cache._delete_oversize` (lines 31-34): pop the oldest entry while the
size exceeds `max_size`; `popitem` on an empty `OrderedDict` raises
(`none`). -/
def kdelOversize [DecidableEq K] (maxSize : Int) :
    List (K × V) → List (K × Int) → Option (List (K × V) × List (K × Int))
  | [], ts => if (0 : Int) > maxSize then none else some ([], ts)
  | e :: rest, ts =>
    if ((e :: rest).length : Int) > maxSize then
      kdelOversize maxSize rest (popKey e.1 ts)
    else some (e :: rest, ts)

/-- The uniqueness scan of `Cache.set` (lines 38-42): when `unique`, pop every
other key whose stored value equals the new value. -/
def Cache.uniquePass [DecidableEq K] [DecidableEq V] (c : Cache K V) (key : K) (value : V) :
    Cache K V :=
  if c.unique then
    { c with
      cache := ((c.cache.filter (fun p => decide (p.2 = value ∧ p.1 ≠ key))).map
        Prod.fst).foldl (fun l k0 => popKey k0 l) c.cache
      timestamps := ((c.cache.filter (fun p => decide (p.2 = value ∧ p.1 ≠ key))).map
        Prod.fst).foldl (fun l k0 => popKey k0 l) c.timestamps }
  else c

/-- Embeds `Cache.set` lines 36-46: the uniqueness scan, the `move_to_end` of an
existing key, and the two dictionary assignments, before the oversize check. -/
def Cache.setBody [DecidableEq K] [DecidableEq V] (c : Cache K V) (key : K) (value : V)
    (now : Int) : Cache K V :=
  { c.uniquePass key value with
    cache := dset key value
      (if hasKey key (c.uniquePass key value).cache then
        odMoveToEnd key (c.uniquePass key value).cache
      else (c.uniquePass key value).cache)
    timestamps := dset key now (c.uniquePass key value).timestamps }

/-- Embeds `Cache.set` (lines 36-49). -/
def Cache.set [DecidableEq K] [DecidableEq V] (c : Cache K V) (key : K) (value : V)
    (now : Int) : Option (Cache K V) :=
  if (((c.setBody key value now).cache.length : Int) > (c.setBody key value now).maxSize) then
    (kdelOversize (c.setBody key value now).maxSize (c.setBody key value now).cache
        (c.setBody key value now).timestamps).map
      (fun p => { c.setBody key value now with cache := p.1, timestamps := p.2 })
  else some (c.setBody key value now)

/-- Embeds `Cache.delete` (lines 62-64): tolerant pop of both structures. -/
def Cache.delete [DecidableEq K] (c : Cache K V) (key : K) : Cache K V :=
  { c with cache := popKey key c.cache, timestamps := popKey key c.timestamps }

/-- Embeds `Cache.get` (lines 51-60): returns the looked-up value (if any) together
with the updated state. -/
def Cache.get [DecidableEq K] (c : Cache K V) (key : K) (now : Int) :
    Option V × Cache K V :=
  if hasKey key c.cache then
    if ¬ c.isExpired key now then
      (alookup key (odMoveToEnd key c.cache),
        { c with cache := odMoveToEnd key c.cache, timestamps := dset key now c.timestamps })
    else (none, c.delete key)
  else (none, c)

/-- Embeds `Cache.clear` (lines 66-68). -/
def Cache.clear (c : Cache K V) : Cache K V :=
  { c with cache := [], timestamps := [] }

/-- Embeds `Cache.items` (lines 70-75): purge every expired key, then return the
remaining entries (freshest last) together with the updated state. -/
def Cache.items [DecidableEq K] (c : Cache K V) (now : Int) :
    List (K × V) × Cache K V :=
  ((((c.cache.map Prod.fst).filter (fun k => c.isExpired k now)).foldl
      (fun s k => s.delete k) c).cache,
    ((c.cache.map Prod.fst).filter (fun k => c.isExpired k now)).foldl
      (fun s k => s.delete k) c)

/-- Embeds `Cache.__len__` (lines 77-78). -/
def Cache.length (c : Cache K V) : Nat := c.cache.length

/-- Embeds `Cache.__contains__` (lines 80-84). -/
def Cache.contains [DecidableEq K] (c : Cache K V) (key : K) (now : Int) : Bool :=
  hasKey key c.cache && ! c.isExpired key now

/-! ### The unkeyed cache (`class KeylessCache`, cache.py lines 87-179) -/

/-- Embeds `set.discard(v)`: remove `v` from the membership set if present. -/
def sdiscard [DecidableEq V] (v : V) (s : List V) : List V :=
  s.filter (fun x => decide (x ≠ v))

/-- Embeds `set.add(v)`: insert `v` into the membership set if absent. -/
def sadd [DecidableEq V] (v : V) (s : List V) : List V :=
  if v ∈ s then s else s ++ [v]

/-- Python sequence index normalisation with bounds check: a negative index
counts from the end (`-len <= index < len`). -/
def normIdx (len : Nat) (index : Int) : Option Nat :=
  if -(len : Int) ≤ index ∧ index < (len : Int) then
    some (if index < 0 then (index + len).toNat else index.toNat)
  else none

/-- Embeds `deque[index]` with Python index semantics. -/
def deqGet (l : List V) (index : Int) : Option V :=
  (normIdx l.length index).bind (fun i => l[i]?)

/-- The sort comparison of `KeylessCache._sort_cache` (line 119):
`key=key_func`, direction given by `reverse`.  Python's sort is stable, so
the result is determined by this relation alone. -/
def sortRel (keyf : V → Int) (rev : Bool) (x y : V) : Prop :=
  match rev with
  | true => keyf y ≤ keyf x
  | false => keyf x ≤ keyf y

instance sortRel.decRel [DecidableEq V] (keyf : V → Int) (rev : Bool) :
    DecidableRel (sortRel keyf rev) := fun x y => by
  unfold sortRel
  cases rev <;> exact inferInstance

/-- State of `KeylessCache`: configuration plus `_cache` and `_timestamps`
(parallel deques, oldest position first) and `_set` (value membership set,
modelled as a duplicate-free list). -/
structure KeylessCache (V : Type) where
  maxSize : Int
  ttl : Option Int
  sortBy : Option ((V → Int) × Option Bool)
  cache : List V
  timestamps : List Int
  sset : List V

/-- Embeds `KeylessCache.__init__` (lines 88-101); `ttl or None` as in `Cache`. -/
def KeylessCache.init (maxSize : Int) (ttl : Option Int)
    (sortBy : Option ((V → Int) × Option Bool)) : KeylessCache V :=
  { maxSize := maxSize
    ttl := if ttl = some 0 then none else ttl
    sortBy := sortBy
    cache := []
    timestamps := []
    sset := [] }

/-- Embeds `KeylessCache._is_expired` (lines 103-107):
`now - self._timestamps[index] > self.ttl`.  Every call site passes an
in-bounds index, where the `getD 0` default is never used. -/
def KeylessCache.isExpired (c : KeylessCache V) (index : Int) (now : Int) : Bool :=
  match c.ttl with
  | none => false
  | some t =>
    decide (now - ((normIdx c.timestamps.length index).bind (fun i => c.timestamps[i]?)).getD 0 > t)

/-- Embeds `KeylessCache._delete_oversize` (lines 109-113): pop the oldest value and
timestamp and discard the value from the set while the size exceeds
`max_size`; `popleft` on an empty deque raises (`none`). -/
def ldelOversize [DecidableEq V] (maxSize : Int) :
    List V → List Int → List V → Option (List V × List Int × List V)
  | [], ts, st => if (0 : Int) > maxSize then none else some ([], ts, st)
  | v :: rest, ts, st =>
    if ((v :: rest).length : Int) > maxSize then
      match ts with
      | [] => none
      | _ :: tsRest => ldelOversize maxSize rest tsRest (sdiscard v st)
    else some (v :: rest, ts, st)

/-- Embeds `KeylessCache._sort_cache` (lines 115-121): stable sort of the zipped
(value, timestamp) pairs by `key_func` with `reverse=(reverse or False)`. -/
def KeylessCache.sortCache [DecidableEq V] (c : KeylessCache V) : KeylessCache V :=
  match c.sortBy with
  | none => c
  | some (keyf, rev) =>
    if c.cache = [] then c
    else
      { c with
        cache := ((c.cache.zip c.timestamps).insertionSort
          (fun a b => sortRel keyf (rev.getD false) a.1 b.1)).map Prod.fst
        timestamps := ((c.cache.zip c.timestamps).insertionSort
          (fun a b => sortRel keyf (rev.getD false) a.1 b.1)).map Prod.snd }

/-- Embeds `KeylessCache.add` (lines 123-135).  On a value already in `_set` the
first matching index is refreshed (`next` raising on a desynchronised `_set`
is `none`); otherwise the cache is trimmed when at or above `max_size` and
the value appended.  Either way the sort order is reapplied. -/
def KeylessCache.add [DecidableEq V] (c : KeylessCache V) (value : V) (now : Int) :
    Option (KeylessCache V) :=
  if value ∈ c.sset then
    match c.cache.findIdx? (fun x => decide (x = value)) with
    | some idx => some ({ c with timestamps := c.timestamps.set idx now }).sortCache
    | none => none
  else
    if (c.cache.length : Int) ≥ c.maxSize then
      (ldelOversize c.maxSize c.cache c.timestamps c.sset).map (fun r =>
        ({ c with cache := r.1 ++ [value]
                  timestamps := r.2.1 ++ [now]
                  sset := sadd value r.2.2 }).sortCache)
    else
      some ({ c with cache := c.cache ++ [value]
                     timestamps := c.timestamps ++ [now]
                     sset := sadd value c.sset }).sortCache

/-- Embeds `KeylessCache.remove` (lines 148-153): bounds-checked deletion at an
index; a silent no-op when out of range. -/
def KeylessCache.remove [DecidableEq V] (c : KeylessCache V) (index : Int) :
    KeylessCache V :=
  match normIdx c.cache.length index with
  | some i =>
    match c.cache[i]? with
    | some v =>
      { c with cache := c.cache.eraseIdx i
               timestamps := c.timestamps.eraseIdx i
               sset := sdiscard v c.sset }
    | none => c
  | none => c

/-- Embeds `KeylessCache.get` (lines 137-146): bounds-checked read; an expired entry
is removed (the source's extra `discard` of the same value after `remove` is
a no-op, `remove` having already discarded it) and absent returned. -/
def KeylessCache.get [DecidableEq V] (c : KeylessCache V) (index : Int) (now : Int) :
    Option V × KeylessCache V :=
  if -(c.cache.length : Int) ≤ index ∧ index < (c.cache.length : Int) then
    if ¬ c.isExpired index now then (deqGet c.cache index, c)
    else (none, c.remove index)
  else (none, c)

/-- Embeds `KeylessCache.clear` (lines 155-158). -/
def KeylessCache.clear (c : KeylessCache V) : KeylessCache V :=
  { c with cache := [], timestamps := [], sset := [] }

/-- Embeds `KeylessCache.items` (lines 160-169): collect the expired indices, remove
them from last to first (again, the source's extra `discard` after each
`remove` is a no-op), then return the remaining values with the state. -/
def KeylessCache.items [DecidableEq V] (c : KeylessCache V) (now : Int) :
    List V × KeylessCache V :=
  ⟨(((List.range c.cache.length).filter
        (fun (i : Nat) => c.isExpired (i : Int) now)).reverse.foldl
      (fun s (i : Nat) => s.remove (i : Int)) c).cache,
    ((List.range c.cache.length).filter
        (fun (i : Nat) => c.isExpired (i : Int) now)).reverse.foldl
      (fun s (i : Nat) => s.remove (i : Int)) c⟩

/-- Embeds `KeylessCache.__len__` (lines 171-172). -/
def KeylessCache.length (c : KeylessCache V) : Nat := c.cache.length

/-- Embeds `KeylessCache.__contains__` (lines 174-179): membership in `_set`, then
freshness of the first matching index. -/
def KeylessCache.contains [DecidableEq V] (c : KeylessCache V) (value : V) (now : Int) :
    Bool :=
  if value ∈ c.sset then
    match c.cache.findIdx? (fun x => decide (x = value)) with
    | some idx => ! c.isExpired (idx : Int) now
    | none => false
  else false

/-! ### Operation sequences

One constructor per public mutating or reading method, so that "after any
sequence of operations" can be stated as a fold.  `contains` and `length`
mutate nothing; `contains` is included to state exactly that. -/

inductive KOp (K V : Type) where
  | set (k : K) (v : V) (now : Int)
  | get (k : K) (now : Int)
  | delete (k : K)
  | clear
  | items (now : Int)
  | contains (k : K) (now : Int)

/-- Apply one keyed-cache operation; `none` is a raised exception. -/
def applyKOp [DecidableEq K] [DecidableEq V] (c : Cache K V) :
    KOp K V → Option (Cache K V)
  | .set k v now => c.set k v now
  | .get k now => some (c.get k now).2
  | .delete k => some (c.delete k)
  | .clear => some c.clear
  | .items now => some (c.items now).2
  | .contains _ _ => some c

/-- Run a sequence of keyed-cache operations. -/
def runK [DecidableEq K] [DecidableEq V] (c : Cache K V) :
    List (KOp K V) → Option (Cache K V)
  | [] => some c
  | op :: ops =>
    match applyKOp c op with
    | some c1 => runK c1 ops
    | none => none

inductive LOp (V : Type) where
  | add (v : V) (now : Int)
  | get (index : Int) (now : Int)
  | remove (index : Int)
  | clear
  | items (now : Int)
  | contains (v : V) (now : Int)

/-- Apply one unkeyed-cache operation; `none` is a raised exception. -/
def applyLOp [DecidableEq V] (c : KeylessCache V) :
    LOp V → Option (KeylessCache V)
  | .add v now => c.add v now
  | .get i now => some (c.get i now).2
  | .remove i => some (c.remove i)
  | .clear => some c.clear
  | .items now => some (c.items now).2
  | .contains _ _ => some c

/-- Run a sequence of unkeyed-cache operations. -/
def runL [DecidableEq V] (c : KeylessCache V) :
    List (LOp V) → Option (KeylessCache V)
  | [] => some c
  | op :: ops =>
    match applyLOp c op with
    | some c1 => runL c1 ops
    | none => none

/-! ### Invariant predicates and analysis helpers -/

section InvariantDefs

variable [DecidableEq K] [DecidableEq V]

/-- Well-formed keyed state: both dicts have duplicate-free key lists and the
same key set (the keyed bookkeeping-consistency property). -/
def KWf (c : Cache K V) : Prop :=
  (c.cache.map Prod.fst).Nodup ∧ (c.timestamps.map Prod.fst).Nodup ∧
    ∀ k, k ∈ c.cache.map Prod.fst ↔ k ∈ c.timestamps.map Prod.fst

/-- No two entries of a keyed cache carry equal values. -/
def ValsNe (l : List (K × V)) : Prop := l.Pairwise (fun a b => a.2 ≠ b.2)

/-- The combined invariant preserved by every keyed operation. -/
def KGood (c : Cache K V) : Prop := KWf c ∧ (c.unique = true → ValsNe c.cache)

/-- Well-formed unkeyed state: the value and timestamp sequences have equal
length, the value sequence is duplicate-free, and `_set` holds exactly the
values of the sequence (the unkeyed bookkeeping-consistency property). -/
def LInv (c : KeylessCache V) : Prop :=
  c.cache.length = c.timestamps.length ∧ c.cache.Nodup ∧
    ∀ v, v ∈ c.sset ↔ v ∈ c.cache

/-- With a sort function configured, the value sequence is ordered by it. -/
def SortOk (c : KeylessCache V) : Prop :=
  match c.sortBy with
  | none => True
  | some (keyf, rev) => c.cache.Pairwise (sortRel keyf (rev.getD false))

/-- The combined invariant preserved by every unkeyed operation. -/
def LGood (c : KeylessCache V) : Prop := LInv c ∧ SortOk c

/-- Embeds `KeylessCache.remove` at an in-range non-negative index, the shape taken
by the removal loop of `items`. -/
def removeNat (c : KeylessCache V) (i : Nat) : KeylessCache V :=
  match c.cache[i]? with
  | some v =>
    { c with cache := c.cache.eraseIdx i
             timestamps := c.timestamps.eraseIdx i
             sset := sdiscard v c.sset }
  | none => c

/-- Keep the elements of a list whose position fails `p`, positions counted
from `i`: the net effect on a sequence of removing all `p`-positions from
last to first. -/
def keepAux (p : Nat → Bool) : Nat → List β → List β
  | _, [] => []
  | i, a :: as => if p i then keepAux p (i + 1) as else a :: keepAux p (i + 1) as

end InvariantDefs

/-! ### Association-list lemmas -/

section DictLemmas

variable [DecidableEq K]

theorem keyIs_eq_true {k : K} {p : K × β} : keyIs k p = true ↔ p.1 = k := by
  simp [keyIs]

theorem mem_popKey {k : K} {p : K × β} {l : List (K × β)} :
    p ∈ popKey k l ↔ p ∈ l ∧ p.1 ≠ k := by
  simp [popKey, List.mem_filter]

theorem popKey_sublist {k : K} {l : List (K × β)} : (popKey k l).Sublist l :=
  List.filter_sublist l

theorem map_fst_popKey {k : K} {l : List (K × β)} :
    (popKey k l).map Prod.fst = (l.map Prod.fst).filter (fun x => decide (x ≠ k)) := by
  induction l with
  | nil => rfl
  | cons p l ih =>
    by_cases h : p.1 = k <;> simp [popKey, List.filter_cons, h] at ih ⊢ <;> simpa [popKey] using ih

theorem mem_map_fst_popKey {k k' : K} {l : List (K × β)} :
    k' ∈ (popKey k l).map Prod.fst ↔ k' ∈ l.map Prod.fst ∧ k' ≠ k := by
  rw [map_fst_popKey]
  simp [List.mem_filter]

theorem hasKey_iff {k : K} {l : List (K × β)} :
    hasKey k l = true ↔ k ∈ l.map Prod.fst := by
  simp only [hasKey, Option.isSome_iff_exists, List.mem_map]
  constructor
  · rintro ⟨e, he⟩
    exact ⟨e, List.find?_mem he, keyIs_eq_true.1 (List.find?_some he)⟩
  · rintro ⟨e, he, hk⟩
    rcases List.find?_isSome.2 ⟨e, he, keyIs_eq_true.2 hk⟩ |> Option.isSome_iff_exists.1 with ⟨e1, h1⟩
    exact ⟨e1, h1⟩

theorem hasKey_eq_false {k : K} {l : List (K × β)} :
    hasKey k l = false ↔ k ∉ l.map Prod.fst := by
  rw [← Bool.not_eq_true, not_iff_not]
  exact hasKey_iff

theorem alookup_eq_some {k : K} {b : β} {l : List (K × β)} :
    alookup k l = some b ↔ ∃ e, l.find? (keyIs k) = some e ∧ e.1 = k ∧ e.2 = b := by
  simp only [alookup, Option.map_eq_some']
  constructor
  · rintro ⟨e, he, rfl⟩
    exact ⟨e, he, keyIs_eq_true.1 (List.find?_some he), rfl⟩
  · rintro ⟨e, he, _, rfl⟩
    exact ⟨e, he, rfl⟩

theorem alookup_isSome {k : K} {l : List (K × β)} :
    (alookup k l).isSome = hasKey k l := by
  simp [alookup, hasKey]

theorem alookup_eq_none {k : K} {l : List (K × β)} :
    alookup k l = none ↔ k ∉ l.map Prod.fst := by
  rw [← Option.not_isSome_iff_eq_none, alookup_isSome, ← hasKey_eq_false]
  simp

theorem map_fst_dset_of_hasKey {k : K} {b : β} {l : List (K × β)}
    (h : hasKey k l = true) : (dset k b l).map Prod.fst = l.map Prod.fst := by
  simp only [dset, h, if_true, List.map_map]
  refine List.map_congr_left (fun p _ => ?_)
  by_cases hp : p.1 = k <;> simp [hp]

theorem map_fst_dset_of_not_hasKey {k : K} {b : β} {l : List (K × β)}
    (h : hasKey k l = false) : (dset k b l).map Prod.fst = l.map Prod.fst ++ [k] := by
  simp [dset, h]

theorem mem_map_fst_dset {k k' : K} {b : β} {l : List (K × β)} :
    k' ∈ (dset k b l).map Prod.fst ↔ k' ∈ l.map Prod.fst ∨ k' = k := by
  cases h : hasKey k l with
  | true =>
    rw [map_fst_dset_of_hasKey h]
    have hk := hasKey_iff.1 h
    constructor
    · exact fun hm => Or.inl hm
    · rintro (hm | rfl)
      · exact hm
      · exact hk
  | false =>
    rw [map_fst_dset_of_not_hasKey h]
    simp

theorem nodup_map_fst_dset {k : K} {b : β} {l : List (K × β)}
    (h : (l.map Prod.fst).Nodup) : ((dset k b l).map Prod.fst).Nodup := by
  cases hk : hasKey k l with
  | true => rw [map_fst_dset_of_hasKey hk]; exact h
  | false =>
    rw [map_fst_dset_of_not_hasKey hk]
    rw [List.nodup_append]
    exact ⟨h, List.nodup_singleton k, by
      intro x hx hmem
      rcases List.mem_singleton.1 hmem with rfl
      exact (hasKey_eq_false.1 hk) hx⟩

theorem map_fst_filter_keyPred (q : K → Bool) (l : List (K × β)) :
    (l.filter (fun p => q p.1)).map Prod.fst = (l.map Prod.fst).filter q := by
  induction l with
  | nil => rfl
  | cons p l ih =>
    by_cases h : q p.1 = true <;> simp [List.filter_cons, h, ih]

theorem foldl_popKey_eq_filter (ks : List K) (l : List (K × β)) :
    ks.foldl (fun l0 k0 => popKey k0 l0) l = l.filter (fun p => decide (p.1 ∉ ks)) := by
  induction ks generalizing l with
  | nil => simp
  | cons k0 ks ih =>
    rw [List.foldl_cons, ih, popKey, List.filter_filter]
    refine List.filter_congr (fun p _ => ?_)
    by_cases h0 : p.1 = k0 <;> by_cases h1 : p.1 ∈ ks <;> simp [h0, h1]

theorem mem_odMoveToEnd {k : K} {p : K × β} {l : List (K × β)}
    (h : p ∈ odMoveToEnd k l) : p ∈ l := by
  unfold odMoveToEnd at h
  cases he : l.find? (keyIs k) with
  | none => rw [he] at h; exact h
  | some e =>
    rw [he] at h
    rcases List.mem_append.1 h with h1 | h1
    · exact (mem_popKey.1 h1).1
    · rcases List.mem_singleton.1 h1 with rfl
      exact List.mem_of_find?_eq_some he

theorem mem_map_fst_odMoveToEnd {k k' : K} {l : List (K × β)} :
    k' ∈ (odMoveToEnd k l).map Prod.fst ↔ k' ∈ l.map Prod.fst := by
  unfold odMoveToEnd
  cases he : l.find? (keyIs k) with
  | none => rfl
  | some e =>
    have hek : e.1 = k := keyIs_eq_true.1 (List.find?_some he)
    have hkmem : k ∈ l.map Prod.fst := List.mem_map.2 ⟨e, List.mem_of_find?_eq_some he, hek⟩
    rw [List.map_append]
    simp only [List.mem_append, mem_map_fst_popKey, List.map_cons, List.map_nil,
      List.mem_singleton, hek]
    constructor
    · rintro (⟨h1, _⟩ | rfl)
      · exact h1
      · exact hkmem
    · intro h1
      by_cases hk : k' = k
      · exact Or.inr hk
      · exact Or.inl ⟨h1, hk⟩

theorem nodup_map_fst_odMoveToEnd {k : K} {l : List (K × β)}
    (h : (l.map Prod.fst).Nodup) : ((odMoveToEnd k l).map Prod.fst).Nodup := by
  unfold odMoveToEnd
  cases he : l.find? (keyIs k) with
  | none => exact h
  | some e =>
    have hek : e.1 = k := keyIs_eq_true.1 (List.find?_some he)
    rw [List.map_append, List.nodup_append]
    refine ⟨?_, by simp, ?_⟩
    · rw [map_fst_popKey]
      exact h.filter _
    · intro x hx hmem
      simp only [List.map_cons, List.map_nil, List.mem_singleton, hek] at hmem
      rcases hmem with rfl
      exact (mem_map_fst_popKey.1 hx).2 rfl

theorem alookup_odMoveToEnd_self {k : K} {e : K × β} {l : List (K × β)}
    (he : l.find? (keyIs k) = some e) : alookup k (odMoveToEnd k l) = some e.2 := by
  unfold alookup odMoveToEnd
  rw [he, List.find?_append]
  have h1 : (popKey k l).find? (keyIs k) = none := by
    rw [List.find?_eq_none]
    intro p hp
    simp only [keyIs, decide_eq_true_eq]
    exact (mem_popKey.1 hp).2
  have hek : e.1 = k := keyIs_eq_true.1 (List.find?_some he)
  simp [h1, List.find?_cons, keyIs, hek]

theorem getLast?_odMoveToEnd {k : K} {e : K × β} {l : List (K × β)}
    (he : l.find? (keyIs k) = some e) : (odMoveToEnd k l).getLast? = some e := by
  unfold odMoveToEnd
  rw [he]
  exact List.getLast?_concat _

theorem kdelOversize_sublist [DecidableEq V] {m : Int} :
    ∀ {l : List (K × V)} {ts : List (K × Int)} {l1 : List (K × V)} {ts1 : List (K × Int)},
      kdelOversize m l ts = some (l1, ts1) → l1.Sublist l := by
  intro l
  induction l with
  | nil =>
    intro ts l1 ts1 h
    unfold kdelOversize at h
    by_cases h0 : (0 : Int) > m <;> simp [h0] at h
    rcases h with ⟨h1, _⟩
    rw [← h1]
  | cons e rest ih =>
    intro ts l1 ts1 h
    unfold kdelOversize at h
    by_cases h0 : ((e :: rest).length : Int) > m
    · rw [if_pos h0] at h
      exact (ih h).cons e
    · rw [if_neg h0] at h
      simp only [Option.some_inj, Prod.mk.injEq] at h
      rw [← h.1]

theorem kdelOversize_keys [DecidableEq V] {m : Int} :
    ∀ {l : List (K × V)} {ts : List (K × Int)} {l1 : List (K × V)} {ts1 : List (K × Int)},
      kdelOversize m l ts = some (l1, ts1) →
      (l.map Prod.fst).Nodup → (ts.map Prod.fst).Nodup →
      (∀ k, k ∈ l.map Prod.fst ↔ k ∈ ts.map Prod.fst) →
      (l1.map Prod.fst).Nodup ∧ (ts1.map Prod.fst).Nodup ∧
        ∀ k, k ∈ l1.map Prod.fst ↔ k ∈ ts1.map Prod.fst := by
  intro l
  induction l with
  | nil =>
    intro ts l1 ts1 h hn1 hn2 hequiv
    unfold kdelOversize at h
    by_cases h0 : (0 : Int) > m <;> simp [h0] at h
    rcases h with ⟨h1, h2⟩
    subst h1
    subst h2
    exact ⟨hn1, hn2, hequiv⟩
  | cons e rest ih =>
    intro ts l1 ts1 h hn1 hn2 hequiv
    unfold kdelOversize at h
    by_cases h0 : ((e :: rest).length : Int) > m
    · rw [if_pos h0] at h
      simp only [List.map_cons, List.nodup_cons] at hn1
      refine ih h hn1.2 (by rw [map_fst_popKey]; exact hn2.filter _) ?_
      intro k
      rw [mem_map_fst_popKey]
      constructor
      · intro hk
        refine ⟨(hequiv k).1 (by simp [hk]), ?_⟩
        rintro rfl
        exact hn1.1 hk
      · rintro ⟨hk, hne⟩
        rcases List.mem_cons.1 ((hequiv k).2 hk) with h1 | h1
        · exact absurd h1 hne
        · exact h1
    · rw [if_neg h0] at h
      simp only [Option.some_inj, Prod.mk.injEq] at h
      rw [← h.1, ← h.2]
      exact ⟨hn1, hn2, hequiv⟩

theorem find?_keyIs_update {k : K} {b : β} (l : List (K × β)) :
    (l.map (fun p => if p.1 = k then (k, b) else p)).find? (keyIs k) =
      (l.find? (keyIs k)).map (fun _ => (k, b)) := by
  induction l with
  | nil => rfl
  | cons p l ih =>
    by_cases hp : p.1 = k
    · simp [List.find?_cons, keyIs, hp]
    · simp [List.find?_cons, keyIs, hp, ih]

theorem find?_keyIs_eq_none {k : K} {l : List (K × β)} (h : hasKey k l = false) :
    l.find? (keyIs k) = none := by
  simp only [hasKey] at h
  exact Option.not_isSome_iff_eq_none.1 (by simp [h])

theorem alookup_dset_self {k : K} {b : β} {l : List (K × β)} :
    alookup k (dset k b l) = some b := by
  by_cases h : hasKey k l
  · rcases Option.isSome_iff_exists.1 h with ⟨e, he⟩
    unfold alookup dset
    rw [if_pos h, find?_keyIs_update, he]
    rfl
  · have hf : hasKey k l = false := by simpa using h
    simp [alookup, dset, hf, List.find?_append, find?_keyIs_eq_none hf, List.find?_cons, keyIs]

end DictLemmas

/-! ### Keyed-cache invariants

`KWf` is the dictionary bookkeeping consistency (claim about `_cache` /
`_timestamps` key sets), `ValsNe` the pairwise value-distinctness that the
`unique` flag maintains. -/

section KeyedInvariants

variable [DecidableEq K] [DecidableEq V]

theorem valsNe_symm : Symmetric (fun (a b : K × V) => a.2 ≠ b.2) :=
  fun _ _ h => Ne.symm h

theorem kgood_init (m : Int) (t : Option Int) (u : Bool) :
    KGood (Cache.init (K := K) (V := V) m t u) := by
  refine ⟨⟨?_, ?_, ?_⟩, ?_⟩ <;> simp [Cache.init, ValsNe]

theorem map_fst_filter_notMem (S : List K) (l : List (K × β)) :
    (l.filter (fun p => decide (p.1 ∉ S))).map Prod.fst =
      (l.map Prod.fst).filter (fun x => decide (x ∉ S)) :=
  map_fst_filter_keyPred (fun x => decide (x ∉ S)) l

theorem uniquePass_cache_of_unique {c : Cache K V} {key : K} {value : V}
    (hu : c.unique = true) :
    (c.uniquePass key value).cache =
      c.cache.filter (fun p => decide (p.1 ∉
        (c.cache.filter (fun q => decide (q.2 = value ∧ q.1 ≠ key))).map Prod.fst)) := by
  unfold Cache.uniquePass
  rw [if_pos hu]
  exact foldl_popKey_eq_filter _ _

theorem uniquePass_cache_of_not_unique {c : Cache K V} {key : K} {value : V}
    (hu : ¬ c.unique = true) : (c.uniquePass key value).cache = c.cache := by
  unfold Cache.uniquePass
  rw [if_neg hu]

theorem uniquePass_timestamps_of_unique {c : Cache K V} {key : K} {value : V}
    (hu : c.unique = true) :
    (c.uniquePass key value).timestamps =
      c.timestamps.filter (fun p => decide (p.1 ∉
        (c.cache.filter (fun q => decide (q.2 = value ∧ q.1 ≠ key))).map Prod.fst)) := by
  unfold Cache.uniquePass
  rw [if_pos hu]
  exact foldl_popKey_eq_filter _ _

theorem uniquePass_timestamps_of_not_unique {c : Cache K V} {key : K} {value : V}
    (hu : ¬ c.unique = true) : (c.uniquePass key value).timestamps = c.timestamps := by
  unfold Cache.uniquePass
  rw [if_neg hu]

theorem uniquePass_maxSize (c : Cache K V) (key : K) (value : V) :
    (c.uniquePass key value).maxSize = c.maxSize := by
  unfold Cache.uniquePass
  by_cases h : c.unique <;> simp [h]

theorem uniquePass_ttl (c : Cache K V) (key : K) (value : V) :
    (c.uniquePass key value).ttl = c.ttl := by
  unfold Cache.uniquePass
  by_cases h : c.unique <;> simp [h]

theorem uniquePass_unique (c : Cache K V) (key : K) (value : V) :
    (c.uniquePass key value).unique = c.unique := by
  unfold Cache.uniquePass
  by_cases h : c.unique <;> simp [h]

theorem mem_uniquePass_cache {c : Cache K V} {key : K} {value : V} {p : K × V}
    (h : p ∈ (c.uniquePass key value).cache) : p ∈ c.cache := by
  by_cases hu : c.unique = true
  · rw [uniquePass_cache_of_unique hu] at h
    exact (List.mem_filter.1 h).1
  · rwa [uniquePass_cache_of_not_unique hu] at h

theorem uniquePass_other_vals {c : Cache K V} {key : K} {value : V}
    (hu : c.unique = true) :
    ∀ p ∈ (c.uniquePass key value).cache, p.1 ≠ key → p.2 ≠ value := by
  intro p hp hkey hval
  rw [uniquePass_cache_of_unique hu] at hp
  rcases List.mem_filter.1 hp with ⟨hmem, hdec⟩
  rw [decide_eq_true_eq] at hdec
  exact hdec (List.mem_map.2 ⟨p, List.mem_filter.2 ⟨hmem, by simp [hval, hkey]⟩, rfl⟩)

theorem kwf_uniquePass {c : Cache K V} {key : K} {value : V} (h : KWf c) :
    KWf (c.uniquePass key value) := by
  rcases h with ⟨h1, h2, h3⟩
  by_cases hu : c.unique = true
  · refine ⟨?_, ?_, ?_⟩
    · rw [uniquePass_cache_of_unique hu, map_fst_filter_notMem]
      exact h1.filter _
    · rw [uniquePass_timestamps_of_unique hu, map_fst_filter_notMem]
      exact h2.filter _
    · intro k
      rw [uniquePass_cache_of_unique hu, uniquePass_timestamps_of_unique hu,
        map_fst_filter_notMem, map_fst_filter_notMem, List.mem_filter, List.mem_filter]
      exact and_congr_left' (h3 k)
  · refine ⟨?_, ?_, ?_⟩
    · rw [uniquePass_cache_of_not_unique hu]; exact h1
    · rw [uniquePass_timestamps_of_not_unique hu]; exact h2
    · intro k
      rw [uniquePass_cache_of_not_unique hu, uniquePass_timestamps_of_not_unique hu]
      exact h3 k

theorem valsNe_uniquePass {c : Cache K V} {key : K} {value : V}
    (h : ValsNe c.cache) : ValsNe (c.uniquePass key value).cache := by
  by_cases hu : c.unique = true
  · rw [uniquePass_cache_of_unique hu]
    exact h.sublist (List.filter_sublist _)
  · rwa [uniquePass_cache_of_not_unique hu]

theorem valsNe_odMoveToEnd {k : K} {l : List (K × V)} (hv : ValsNe l) :
    ValsNe (odMoveToEnd k l) := by
  unfold odMoveToEnd
  cases he : l.find? (keyIs k) with
  | none => exact hv
  | some e =>
    have hek : e.1 = k := keyIs_eq_true.1 (List.find?_some he)
    rw [ValsNe, List.pairwise_append]
    refine ⟨hv.sublist (List.filter_sublist _), List.pairwise_singleton _ _, ?_⟩
    intro p hp q hq
    rcases List.mem_singleton.1 hq with rfl
    rcases mem_popKey.1 hp with ⟨hpl, hpk⟩
    exact hv.forall valsNe_symm hpl (List.mem_of_find?_eq_some he)
      (fun hpe => hpk (hpe ▸ hek))

theorem valsNe_dset {k : K} {b : V} {l : List (K × V)}
    (hn : (l.map Prod.fst).Nodup) (hv : ValsNe l)
    (hother : ∀ p ∈ l, p.1 ≠ k → p.2 ≠ b) : ValsNe (dset k b l) := by
  have hkeys : l.Pairwise (fun a b0 => a.1 ≠ b0.1) := by
    rw [List.Nodup, List.pairwise_map] at hn
    exact hn
  unfold dset
  by_cases hk : hasKey k l
  · rw [if_pos hk, ValsNe, List.pairwise_map]
    have hcomb : l.Pairwise (fun a b0 => a.1 ≠ b0.1 ∧ a.2 ≠ b0.2) := hkeys.and hv
    refine hcomb.imp_of_mem ?_
    intro p q hp hq hpq
    by_cases hp1 : p.1 = k <;> by_cases hq1 : q.1 = k
    · exact absurd (hp1.trans hq1.symm) hpq.1
    · simpa [hp1, hq1] using (hother q hq hq1).symm
    · simpa [hp1, hq1] using hother p hp hp1
    · simpa [hp1, hq1] using hpq.2
  · rw [if_neg hk, ValsNe, List.pairwise_append]
    refine ⟨hv, List.pairwise_singleton _ _, ?_⟩
    intro p hp q hq
    rcases List.mem_singleton.1 hq with rfl
    refine hother p hp ?_
    intro hpk
    exact hk (hasKey_iff.2 (List.mem_map.2 ⟨p, hp, hpk⟩))

theorem setBody_maxSize (c : Cache K V) (key : K) (value : V) (now : Int) :
    (c.setBody key value now).maxSize = c.maxSize := by
  unfold Cache.setBody
  simp [uniquePass_maxSize]

theorem setBody_ttl (c : Cache K V) (key : K) (value : V) (now : Int) :
    (c.setBody key value now).ttl = c.ttl := by
  unfold Cache.setBody
  simp [uniquePass_ttl]

theorem setBody_unique (c : Cache K V) (key : K) (value : V) (now : Int) :
    (c.setBody key value now).unique = c.unique := by
  unfold Cache.setBody
  simp [uniquePass_unique]

theorem kwf_setBody {c : Cache K V} {key : K} {value : V} {now : Int} (h : KWf c) :
    KWf (c.setBody key value now) := by
  have h1 : KWf (c.uniquePass key value) := kwf_uniquePass h
  unfold Cache.setBody
  set c1 := c.uniquePass key value with hc1
  rcases h1 with ⟨hn1, hn2, hequiv⟩
  constructor
  · refine nodup_map_fst_dset ?_
    by_cases hk : hasKey key c1.cache
    · rw [if_pos hk]
      exact nodup_map_fst_odMoveToEnd hn1
    · rw [if_neg hk]
      exact hn1
  constructor
  · exact nodup_map_fst_dset hn2
  · intro k
    rw [mem_map_fst_dset, mem_map_fst_dset]
    by_cases hk : hasKey key c1.cache
    · rw [if_pos hk, mem_map_fst_odMoveToEnd]
      exact or_congr_left (hequiv k)
    · rw [if_neg hk]
      exact or_congr_left (hequiv k)

theorem valsNe_setBody {c : Cache K V} {key : K} {value : V} {now : Int}
    (hu : c.unique = true) (hwf : KWf c) (hv : ValsNe c.cache) :
    ValsNe (c.setBody key value now).cache := by
  have hwf1 : KWf (c.uniquePass key value) := kwf_uniquePass hwf
  have hv1 : ValsNe (c.uniquePass key value).cache := valsNe_uniquePass hv
  have hother : ∀ p ∈ (c.uniquePass key value).cache, p.1 ≠ key → p.2 ≠ value :=
    uniquePass_other_vals hu
  unfold Cache.setBody
  set c1 := c.uniquePass key value with hc1
  by_cases hk : hasKey key c1.cache
  · rw [if_pos hk]
    refine valsNe_dset (nodup_map_fst_odMoveToEnd hwf1.1) (valsNe_odMoveToEnd hv1) ?_
    intro p hp hp1
    exact hother p (mem_odMoveToEnd hp) hp1
  · rw [if_neg hk]
    exact valsNe_dset hwf1.1 hv1 hother

theorem kgood_set {c c' : Cache K V} {key : K} {value : V} {now : Int}
    (h : KGood c) (hs : c.set key value now = some c') : KGood c' := by
  rcases h with ⟨hwf, hvals⟩
  unfold Cache.set at hs
  set c2 := c.setBody key value now with hc2
  have hwf2 : KWf c2 := kwf_setBody hwf
  have hvals2 : c2.unique = true → ValsNe c2.cache := by
    rw [hc2, setBody_unique]
    intro hu
    exact valsNe_setBody hu hwf (hvals hu)
  by_cases hover : (c2.cache.length : Int) > c2.maxSize
  · rw [if_pos hover] at hs
    rcases Option.map_eq_some'.1 hs with ⟨⟨l1, ts1⟩, hdel, hback⟩
    rcases kdelOversize_keys hdel hwf2.1 hwf2.2.1 hwf2.2.2 with ⟨k1, k2, k3⟩
    subst hback
    refine ⟨⟨k1, k2, k3⟩, ?_⟩
    intro hu
    exact ((hvals2 hu).sublist (kdelOversize_sublist hdel))
  · rw [if_neg hover] at hs
    rcases Option.some_inj.1 hs with rfl
    exact ⟨hwf2, hvals2⟩

theorem kwf_delete {c : Cache K V} {key : K} (h : KWf c) : KWf (c.delete key) := by
  rcases h with ⟨h1, h2, h3⟩
  unfold Cache.delete
  refine ⟨?_, ?_, ?_⟩
  · rw [map_fst_popKey]; exact h1.filter _
  · rw [map_fst_popKey]; exact h2.filter _
  · intro k
    rw [mem_map_fst_popKey, mem_map_fst_popKey]
    exact and_congr_left' (h3 k)

theorem kgood_delete {c : Cache K V} {key : K} (h : KGood c) : KGood (c.delete key) := by
  refine ⟨kwf_delete h.1, ?_⟩
  intro hu
  exact (h.2 hu).sublist popKey_sublist

theorem kgood_get {c : Cache K V} {key : K} {now : Int} (h : KGood c) :
    KGood (c.get key now).2 := by
  unfold Cache.get
  by_cases h1 : hasKey key c.cache
  · rw [if_pos h1]
    by_cases h2 : ¬ c.isExpired key now
    · rw [if_pos h2]
      rcases h with ⟨⟨hn1, hn2, hequiv⟩, hvals⟩
      refine ⟨⟨?_, ?_, ?_⟩, ?_⟩
      · exact nodup_map_fst_odMoveToEnd hn1
      · exact nodup_map_fst_dset hn2
      · intro k
        rw [mem_map_fst_odMoveToEnd, mem_map_fst_dset]
        constructor
        · intro hm
          exact Or.inl ((hequiv k).1 hm)
        · rintro (hm | rfl)
          · exact (hequiv k).2 hm
          · exact hasKey_iff.1 h1
      · intro hu
        exact valsNe_odMoveToEnd (hvals hu)
    · rw [if_neg h2]
      exact kgood_delete h
  · rw [if_neg h1]
    exact h

theorem kgood_clear {c : Cache K V} (_ : KGood c) : KGood c.clear := by
  refine ⟨⟨?_, ?_, ?_⟩, ?_⟩ <;> simp [Cache.clear, ValsNe]

theorem kgood_foldl_delete {c : Cache K V} (ks : List K) (h : KGood c) :
    KGood (ks.foldl (fun s k => s.delete k) c) := by
  induction ks generalizing c with
  | nil => exact h
  | cons k ks ih => exact ih (kgood_delete h)

theorem kgood_items {c : Cache K V} {now : Int} (h : KGood c) :
    KGood (c.items now).2 := by
  unfold Cache.items
  exact kgood_foldl_delete _ h

theorem kgood_applyKOp {c c' : Cache K V} {op : KOp K V}
    (h : KGood c) (hs : applyKOp c op = some c') : KGood c' := by
  cases op with
  | set k v now => exact kgood_set h hs
  | get k now =>
    rcases Option.some_inj.1 hs with rfl
    exact kgood_get h
  | delete k =>
    rcases Option.some_inj.1 hs with rfl
    exact kgood_delete h
  | clear =>
    rcases Option.some_inj.1 hs with rfl
    exact kgood_clear h
  | items now =>
    rcases Option.some_inj.1 hs with rfl
    exact kgood_items h
  | contains k now =>
    rcases Option.some_inj.1 hs with rfl
    exact h

theorem runK_kgood : ∀ (ops : List (KOp K V)) (c c' : Cache K V),
    KGood c → runK c ops = some c' → KGood c' := by
  intro ops
  induction ops with
  | nil =>
    intro c c' h hs
    rcases Option.some_inj.1 hs with rfl
    exact h
  | cons op ops ih =>
    intro c c' h hs
    unfold runK at hs
    cases happ : applyKOp c op with
    | none => rw [happ] at hs; exact absurd hs (by simp)
    | some c1 =>
      rw [happ] at hs
      exact ih c1 c' (kgood_applyKOp h happ) hs

end KeyedInvariants

/-! ### Unkeyed-cache lemmas -/

section KeylessLemmas

variable [DecidableEq V]

theorem mem_sdiscard {v x : V} {s : List V} : x ∈ sdiscard v s ↔ x ∈ s ∧ x ≠ v := by
  simp [sdiscard, List.mem_filter]

theorem mem_sadd {v x : V} {s : List V} : x ∈ sadd v s ↔ x ∈ s ∨ x = v := by
  unfold sadd
  by_cases h : v ∈ s
  · rw [if_pos h]
    constructor
    · exact Or.inl
    · rintro (hx | rfl)
      · exact hx
      · exact h
  · rw [if_neg h]
    simp

theorem normIdx_natCast (len i : Nat) :
    normIdx len (i : Int) = if i < len then some i else none := by
  unfold normIdx
  by_cases h : i < len
  · have h1 : -(len : Int) ≤ (i : Int) ∧ (i : Int) < (len : Int) := by omega
    have h2 : ¬ ((i : Int) < 0) := by omega
    rw [if_pos h1, if_pos h, if_neg h2, Int.toNat_natCast]
  · have h1 : ¬ (-(len : Int) ≤ (i : Int) ∧ (i : Int) < (len : Int)) := by omega
    rw [if_neg h1, if_neg h]

theorem remove_natCast (c : KeylessCache V) (i : Nat) :
    c.remove (i : Int) = removeNat c i := by
  unfold KeylessCache.remove removeNat
  rw [normIdx_natCast]
  by_cases h : i < c.cache.length
  · rw [if_pos h]
  · rw [if_neg h, List.getElem?_eq_none (le_of_not_lt h)]

theorem remove_eq_removeNat {c : KeylessCache V} {index : Int} {i : Nat}
    (h : normIdx c.cache.length index = some i) : c.remove index = removeNat c i := by
  unfold KeylessCache.remove removeNat
  rw [h]

theorem remove_eq_self {c : KeylessCache V} {index : Int}
    (h : normIdx c.cache.length index = none) : c.remove index = c := by
  unfold KeylessCache.remove
  rw [h]

theorem removeNat_cache (c : KeylessCache V) (i : Nat) :
    (removeNat c i).cache = c.cache.eraseIdx i := by
  unfold removeNat
  cases h : c.cache[i]? with
  | some v => rfl
  | none =>
    rw [List.eraseIdx_eq_self.2 (List.getElem?_eq_none_iff.1 h)]

theorem removeNat_sortBy (c : KeylessCache V) (i : Nat) :
    (removeNat c i).sortBy = c.sortBy := by
  unfold removeNat
  cases h : c.cache[i]? <;> rfl

theorem removeNat_ttl (c : KeylessCache V) (i : Nat) :
    (removeNat c i).ttl = c.ttl := by
  unfold removeNat
  cases h : c.cache[i]? <;> rfl

theorem removeNat_maxSize (c : KeylessCache V) (i : Nat) :
    (removeNat c i).maxSize = c.maxSize := by
  unfold removeNat
  cases h : c.cache[i]? <;> rfl

theorem linv_removeNat {c : KeylessCache V} (h : LInv c) (i : Nat) :
    LInv (removeNat c i) := by
  rcases h with ⟨hlen, hnd, hmem⟩
  unfold removeNat
  cases hg : c.cache[i]? with
  | none => exact ⟨hlen, hnd, hmem⟩
  | some v =>
    have hi : i < c.cache.length := by
      rcases List.getElem?_eq_some_iff.1 hg with ⟨h1, _⟩
      exact h1
    refine ⟨?_, ?_, ?_⟩
    · rw [List.length_eraseIdx, List.length_eraseIdx, if_pos hi, if_pos (hlen ▸ hi), hlen]
    · exact (List.eraseIdx_sublist _ _).nodup hnd
    · intro x
      rw [mem_sdiscard, hmem, List.mem_eraseIdx_iff_getElem?]
      constructor
      · rintro ⟨hx, hxv⟩
        rcases List.mem_iff_getElem?.1 hx with ⟨j, hj⟩
        refine ⟨j, ?_, hj⟩
        rintro rfl
        exact hxv (Option.some_inj.1 (hj.symm.trans hg))
      · rintro ⟨j, hji, hj⟩
        refine ⟨List.mem_iff_getElem?.2 ⟨j, hj⟩, ?_⟩
        rintro rfl
        exact hji (List.getElem?_inj (by rcases List.getElem?_eq_some_iff.1 hj with ⟨h1, _⟩; exact h1) hnd (hj.trans hg.symm))

theorem sortOk_removeNat {c : KeylessCache V} (h : SortOk c) (i : Nat) :
    SortOk (removeNat c i) := by
  unfold SortOk at h ⊢
  rw [removeNat_sortBy]
  cases hs : c.sortBy with
  | none => trivial
  | some s =>
    obtain ⟨keyf, rev⟩ := s
    rw [hs] at h
    rw [removeNat_cache]
    exact h.sublist (List.eraseIdx_sublist _ _)

theorem lgood_removeNat {c : KeylessCache V} (h : LGood c) (i : Nat) :
    LGood (removeNat c i) :=
  ⟨linv_removeNat h.1 i, sortOk_removeNat h.2 i⟩

theorem lgood_remove {c : KeylessCache V} (h : LGood c) (index : Int) :
    LGood (c.remove index) := by
  cases hn : normIdx c.cache.length index with
  | none => rw [remove_eq_self hn]; exact h
  | some i => rw [remove_eq_removeNat hn]; exact lgood_removeNat h i

theorem sortRel_total (keyf : V → Int) (rev : Bool) :
    ∀ x y, sortRel keyf rev x y ∨ sortRel keyf rev y x := by
  intro x y
  cases rev
  · exact Int.le_total (keyf x) (keyf y)
  · exact Int.le_total (keyf y) (keyf x)

theorem sortRel_trans (keyf : V → Int) (rev : Bool) :
    ∀ {x y z}, sortRel keyf rev x y → sortRel keyf rev y z → sortRel keyf rev x z := by
  intro x y z h1 h2
  cases rev
  · exact le_trans h1 h2
  · exact le_trans h2 h1

theorem sortCache_sset (c : KeylessCache V) : c.sortCache.sset = c.sset := by
  unfold KeylessCache.sortCache
  cases hs : c.sortBy with
  | none => rfl
  | some s =>
    obtain ⟨keyf, rev⟩ := s
    dsimp only
    by_cases hc : c.cache = []
    · rw [if_pos hc]
    · rw [if_neg hc]

theorem sortCache_sortBy (c : KeylessCache V) : c.sortCache.sortBy = c.sortBy := by
  unfold KeylessCache.sortCache
  cases hs : c.sortBy with
  | none => exact hs
  | some s =>
    obtain ⟨keyf, rev⟩ := s
    dsimp only
    by_cases hc : c.cache = []
    · rw [if_pos hc]
      exact hs
    · rw [if_neg hc]

theorem sortCache_ttl (c : KeylessCache V) : c.sortCache.ttl = c.ttl := by
  unfold KeylessCache.sortCache
  cases hs : c.sortBy with
  | none => rfl
  | some s =>
    obtain ⟨keyf, rev⟩ := s
    dsimp only
    by_cases hc : c.cache = []
    · rw [if_pos hc]
    · rw [if_neg hc]

theorem sortCache_maxSize (c : KeylessCache V) : c.sortCache.maxSize = c.maxSize := by
  unfold KeylessCache.sortCache
  cases hs : c.sortBy with
  | none => rfl
  | some s =>
    obtain ⟨keyf, rev⟩ := s
    dsimp only
    by_cases hc : c.cache = []
    · rw [if_pos hc]
    · rw [if_neg hc]

theorem sortCache_cache_perm {c : KeylessCache V}
    (h : c.cache.length = c.timestamps.length) : c.sortCache.cache.Perm c.cache := by
  unfold KeylessCache.sortCache
  cases hs : c.sortBy with
  | none => exact List.Perm.refl _
  | some s =>
    obtain ⟨keyf, rev⟩ := s
    dsimp only
    by_cases hc : c.cache = []
    · rw [if_pos hc]
    · rw [if_neg hc]
      have hperm := (List.perm_insertionSort
        (fun a b => sortRel keyf (rev.getD false) a.1 b.1) (c.cache.zip c.timestamps)).map Prod.fst
      rw [List.map_fst_zip _ _ (le_of_eq h)] at hperm
      exact hperm

theorem sortCache_timestamps_perm {c : KeylessCache V}
    (h : c.cache.length = c.timestamps.length) :
    c.sortCache.timestamps.Perm c.timestamps := by
  unfold KeylessCache.sortCache
  cases hs : c.sortBy with
  | none => exact List.Perm.refl _
  | some s =>
    obtain ⟨keyf, rev⟩ := s
    dsimp only
    by_cases hc : c.cache = []
    · rw [if_pos hc]
    · rw [if_neg hc]
      have hperm := (List.perm_insertionSort
        (fun a b => sortRel keyf (rev.getD false) a.1 b.1) (c.cache.zip c.timestamps)).map Prod.snd
      rw [List.map_snd_zip _ _ (ge_of_eq h)] at hperm
      exact hperm

theorem sortCache_sorted {c : KeylessCache V} {keyf : V → Int} {rev : Option Bool}
    (hs : c.sortBy = some (keyf, rev)) :
    c.sortCache.cache.Pairwise (sortRel keyf (rev.getD false)) := by
  unfold KeylessCache.sortCache
  rw [hs]
  dsimp only
  by_cases hc : c.cache = []
  · rw [if_pos hc]
    rw [hc]
    exact List.Pairwise.nil
  · rw [if_neg hc]
    haveI : IsTotal (V × Int) (fun a b => sortRel keyf (rev.getD false) a.1 b.1) :=
      ⟨fun a b => sortRel_total keyf (rev.getD false) a.1 b.1⟩
    haveI : IsTrans (V × Int) (fun a b => sortRel keyf (rev.getD false) a.1 b.1) :=
      ⟨fun _ _ _ h1 h2 => sortRel_trans keyf (rev.getD false) h1 h2⟩
    exact List.pairwise_map.2 (List.sorted_insertionSort _ (c.cache.zip c.timestamps))

theorem linv_sortCache {c : KeylessCache V} (h : LInv c) : LInv c.sortCache := by
  rcases h with ⟨hlen, hnd, hmem⟩
  have hp1 := sortCache_cache_perm (c := c) hlen
  have hp2 := sortCache_timestamps_perm (c := c) hlen
  refine ⟨?_, ?_, ?_⟩
  · rw [hp1.length_eq, hp2.length_eq, hlen]
  · exact hp1.nodup_iff.2 hnd
  · intro x
    rw [sortCache_sset, hmem]
    exact (hp1.mem_iff).symm

theorem sortOk_sortCache {c : KeylessCache V} : SortOk c → SortOk c.sortCache := by
  intro h
  unfold SortOk at h ⊢
  rw [sortCache_sortBy]
  cases hs : c.sortBy with
  | none => trivial
  | some s =>
    obtain ⟨keyf, rev⟩ := s
    exact sortCache_sorted hs

theorem mem_foldl_sdiscard (vs : List V) (st : List V) (x : V) :
    x ∈ vs.foldl (fun s v => sdiscard v s) st ↔ x ∈ st ∧ x ∉ vs := by
  induction vs generalizing st with
  | nil => simp
  | cons v vs ih =>
    rw [List.foldl_cons, ih, mem_sdiscard]
    simp only [List.mem_cons]
    tauto

theorem ldelOversize_spec {m : Int} :
    ∀ {cache : List V} {ts : List Int} {st : List V} {r},
      ldelOversize m cache ts st = some r →
      ∃ k, r.1 = cache.drop k ∧ r.2.1 = ts.drop k ∧
        r.2.2 = (cache.take k).foldl (fun s v => sdiscard v s) st := by
  intro cache
  induction cache with
  | nil =>
    intro ts st r h
    unfold ldelOversize at h
    by_cases h0 : (0 : Int) > m
    · rw [if_pos h0] at h
      cases h
    · rw [if_neg h0] at h
      rcases Option.some_inj.1 h with rfl
      exact ⟨0, rfl, rfl, rfl⟩
  | cons v rest ih =>
    intro ts st r h
    unfold ldelOversize at h
    by_cases h0 : (((v :: rest).length : Int) > m)
    · rw [if_pos h0] at h
      cases ts with
      | nil => cases h
      | cons t tsRest =>
        rcases ih h with ⟨k, hk1, hk2, hk3⟩
        exact ⟨k + 1, by simpa using hk1, by simpa using hk2, by simpa using hk3⟩
    · rw [if_neg h0] at h
      rcases Option.some_inj.1 h with rfl
      exact ⟨0, rfl, rfl, rfl⟩

theorem findIdx?_isSome_of_mem {v : V} {l : List V} (h : v ∈ l) :
    ∃ i, l.findIdx? (fun x => decide (x = v)) = some i := by
  cases hf : l.findIdx? (fun x => decide (x = v)) with
  | some i => exact ⟨i, rfl⟩
  | none =>
    have := List.findIdx?_eq_none_iff.1 hf v h
    simp at this

theorem sortOk_of_sortCache (mid : KeylessCache V) : SortOk mid.sortCache := by
  unfold SortOk
  cases hs : mid.sortCache.sortBy with
  | none => trivial
  | some s =>
    obtain ⟨keyf, rev⟩ := s
    have hmid : mid.sortBy = some (keyf, rev) := by
      rw [← sortCache_sortBy]
      exact hs
    exact sortCache_sorted hmid

theorem add_shape {c c1 : KeylessCache V} {v : V} {now : Int}
    (hs : c.add v now = some c1) :
    ∃ mid : KeylessCache V, c1 = mid.sortCache ∧ mid.sortBy = c.sortBy ∧
      mid.ttl = c.ttl ∧ mid.maxSize = c.maxSize := by
  unfold KeylessCache.add at hs
  by_cases hv : v ∈ c.sset
  · rw [if_pos hv] at hs
    cases hf : c.cache.findIdx? (fun x => decide (x = v)) with
    | none => rw [hf] at hs; cases hs
    | some idx =>
      rw [hf] at hs
      rcases Option.some_inj.1 hs with rfl
      exact ⟨_, rfl, rfl, rfl, rfl⟩
  · rw [if_neg hv] at hs
    by_cases hfull : ((c.cache.length : Int) ≥ c.maxSize)
    · rw [if_pos hfull] at hs
      rcases Option.map_eq_some'.1 hs with ⟨r, _, hback⟩
      exact ⟨_, hback.symm, rfl, rfl, rfl⟩
    · rw [if_neg hfull] at hs
      rcases Option.some_inj.1 hs with rfl
      exact ⟨_, rfl, rfl, rfl, rfl⟩

theorem sortOk_add {c c1 : KeylessCache V} {v : V} {now : Int}
    (hs : c.add v now = some c1) : SortOk c1 := by
  rcases add_shape hs with ⟨mid, rfl, _⟩
  exact sortOk_of_sortCache mid

theorem add_sortBy {c c1 : KeylessCache V} {v : V} {now : Int}
    (hs : c.add v now = some c1) : c1.sortBy = c.sortBy := by
  rcases add_shape hs with ⟨mid, rfl, hmid, _⟩
  rw [sortCache_sortBy]
  exact hmid

theorem linv_append_new {c : KeylessCache V} {v : V} {now : Int} (h : LInv c)
    (hv : v ∉ c.sset) (k : Nat) :
    LInv { c with
      cache := c.cache.drop k ++ [v]
      timestamps := c.timestamps.drop k ++ [now]
      sset := sadd v ((c.cache.take k).foldl (fun s x => sdiscard x s) c.sset) } ∧
    v ∈ c.cache.drop k ++ [v] := by
  rcases h with ⟨hlen, hnd, hmem⟩
  have hvc : v ∉ c.cache := fun hc => hv ((hmem v).2 hc)
  have hsplit : c.cache.take k ++ c.cache.drop k = c.cache := List.take_append_drop k c.cache
  have hnd2 : (c.cache.take k ++ c.cache.drop k).Nodup := by rw [hsplit]; exact hnd
  rcases List.nodup_append.1 hnd2 with ⟨hndTake, hndDrop, hdisj⟩
  refine ⟨⟨?_, ?_, ?_⟩, List.mem_append.2 (Or.inr (List.mem_singleton.2 rfl))⟩
  · simp only [List.length_append, List.length_drop, List.length_singleton, hlen]
  · rw [List.nodup_append]
    refine ⟨hndDrop, List.nodup_singleton v, ?_⟩
    intro x hx hxv
    rcases List.mem_singleton.1 hxv with rfl
    exact hvc ((List.drop_sublist k c.cache).subset hx)
  · intro x
    rw [mem_sadd, mem_foldl_sdiscard, hmem, List.mem_append, List.mem_singleton]
    constructor
    · rintro (⟨hxc, hxt⟩ | rfl)
      · refine Or.inl ?_
        rcases List.mem_append.1 (hsplit ▸ hxc) with h1 | h1
        · exact absurd h1 hxt
        · exact h1
      · exact Or.inr rfl
    · rintro (hxd | rfl)
      · exact Or.inl ⟨(List.drop_sublist k c.cache).subset hxd, fun hxt => hdisj hxt hxd⟩
      · exact Or.inr rfl

theorem linv_add {c c1 : KeylessCache V} {v : V} {now : Int}
    (h : LInv c) (hs : c.add v now = some c1) : LInv c1 ∧ v ∈ c1.cache := by
  unfold KeylessCache.add at hs
  by_cases hv : v ∈ c.sset
  · rw [if_pos hv] at hs
    cases hf : c.cache.findIdx? (fun x => decide (x = v)) with
    | none => rw [hf] at hs; cases hs
    | some idx =>
      rw [hf] at hs
      rcases Option.some_inj.1 hs with rfl
      have hmidInv : LInv { c with timestamps := c.timestamps.set idx now } := by
        rcases h with ⟨hlen, hnd, hmem⟩
        exact ⟨by rw [List.length_set]; exact hlen, hnd, hmem⟩
      refine ⟨linv_sortCache hmidInv, ?_⟩
      have hvc : v ∈ c.cache := (h.2.2 v).1 hv
      exact (sortCache_cache_perm hmidInv.1).mem_iff.2 hvc
  · rw [if_neg hv] at hs
    by_cases hfull : ((c.cache.length : Int) ≥ c.maxSize)
    · rw [if_pos hfull] at hs
      rcases Option.map_eq_some'.1 hs with ⟨r, hdel, hback⟩
      rcases ldelOversize_spec hdel with ⟨k, hk1, hk2, hk3⟩
      rcases linv_append_new h hv k with ⟨hmidInv, hvmid⟩
      have hshape : ({ c with
          cache := r.1 ++ [v], timestamps := r.2.1 ++ [now], sset := sadd v r.2.2 }
            : KeylessCache V) =
          { c with
            cache := c.cache.drop k ++ [v]
            timestamps := c.timestamps.drop k ++ [now]
            sset := sadd v ((c.cache.take k).foldl (fun s x => sdiscard x s) c.sset) } := by
        rw [hk1, hk2, hk3]
      rw [hshape] at hback
      rcases hback.symm with rfl
      refine ⟨linv_sortCache hmidInv, ?_⟩
      exact (sortCache_cache_perm hmidInv.1).mem_iff.2 hvmid
    · rw [if_neg hfull] at hs
      rcases Option.some_inj.1 hs with rfl
      rcases linv_append_new h hv 0 with ⟨hmidInv, hvmid⟩
      refine ⟨linv_sortCache hmidInv, ?_⟩
      exact (sortCache_cache_perm hmidInv.1).mem_iff.2 hvmid

theorem lgood_init (m : Int) (t : Option Int)
    (srt : Option ((V → Int) × Option Bool)) : LGood (KeylessCache.init m t srt) := by
  refine ⟨⟨rfl, List.nodup_nil, ?_⟩, ?_⟩
  · intro x
    simp [KeylessCache.init]
  · unfold SortOk KeylessCache.init
    cases srt with
    | none => trivial
    | some s =>
      obtain ⟨keyf, rev⟩ := s
      exact List.Pairwise.nil

theorem lgood_add {c c1 : KeylessCache V} {v : V} {now : Int}
    (h : LGood c) (hs : c.add v now = some c1) : LGood c1 :=
  ⟨(linv_add h.1 hs).1, sortOk_add hs⟩

theorem get_snd_cases (c : KeylessCache V) (index now : Int) :
    (c.get index now).2 = c ∨ (c.get index now).2 = c.remove index := by
  unfold KeylessCache.get
  by_cases hb : (-(c.cache.length : Int) ≤ index ∧ index < (c.cache.length : Int))
  · rw [if_pos hb]
    by_cases he : ¬ c.isExpired index now
    · rw [if_pos he]
      exact Or.inl rfl
    · rw [if_neg he]
      exact Or.inr rfl
  · rw [if_neg hb]
    exact Or.inl rfl

theorem lgood_get_snd {c : KeylessCache V} (h : LGood c) (index now : Int) :
    LGood (c.get index now).2 := by
  rcases get_snd_cases c index now with h1 | h1 <;> rw [h1]
  · exact h
  · exact lgood_remove h index

theorem lgood_clear {c : KeylessCache V} (h : LGood c) : LGood c.clear := by
  refine ⟨⟨rfl, List.nodup_nil, by intro x; simp [KeylessCache.clear]⟩, ?_⟩
  unfold SortOk KeylessCache.clear
  rcases h with ⟨_, hso⟩
  cases hs : c.sortBy with
  | none => trivial
  | some s =>
    obtain ⟨keyf, rev⟩ := s
    exact List.Pairwise.nil

theorem lgood_foldl_remove (is : List Nat) :
    ∀ c : KeylessCache V, LGood c →
      LGood (is.foldl (fun s (i : Nat) => s.remove (i : Int)) c) := by
  induction is with
  | nil => exact fun c h => h
  | cons i is ih =>
    intro c h
    rw [List.foldl_cons]
    exact ih _ (lgood_remove h (i : Int))

theorem lgood_items_snd {c : KeylessCache V} (h : LGood c) (now : Int) :
    LGood (c.items now).2 := by
  unfold KeylessCache.items
  exact lgood_foldl_remove _ c h

theorem lgood_applyLOp {c c1 : KeylessCache V} {op : LOp V}
    (h : LGood c) (hs : applyLOp c op = some c1) : LGood c1 := by
  cases op with
  | add v now => exact lgood_add h hs
  | get i now =>
    rcases Option.some_inj.1 hs with rfl
    exact lgood_get_snd h i now
  | remove i =>
    rcases Option.some_inj.1 hs with rfl
    exact lgood_remove h i
  | clear =>
    rcases Option.some_inj.1 hs with rfl
    exact lgood_clear h
  | items now =>
    rcases Option.some_inj.1 hs with rfl
    exact lgood_items_snd h now
  | contains v now =>
    rcases Option.some_inj.1 hs with rfl
    exact h

theorem runL_lgood : ∀ (ops : List (LOp V)) (c c1 : KeylessCache V),
    LGood c → runL c ops = some c1 → LGood c1 := by
  intro ops
  induction ops with
  | nil =>
    intro c c1 h hs
    rcases Option.some_inj.1 hs with rfl
    exact h
  | cons op ops ih =>
    intro c c1 h hs
    unfold runL at hs
    cases happ : applyLOp c op with
    | none => rw [happ] at hs; exact absurd hs (by simp)
    | some cm =>
      rw [happ] at hs
      exact ih cm c1 (lgood_applyLOp h happ) hs

theorem cache_foldr_remove (idxs : List Nat) (c : KeylessCache V) :
    (idxs.foldr (fun (i : Nat) (s : KeylessCache V) => s.remove (i : Int)) c).cache =
      idxs.foldr (fun (i : Nat) (l : List V) => l.eraseIdx i) c.cache := by
  induction idxs with
  | nil => rfl
  | cons i idxs ih =>
    rw [List.foldr_cons, List.foldr_cons, remove_natCast, removeNat_cache, ih]

theorem keepAux_shift (p : Nat → Bool) :
    ∀ (l : List β) (i : Nat), keepAux p (i + 1) l = keepAux (fun j => p (j + 1)) i l := by
  intro l
  induction l with
  | nil => intro i; rfl
  | cons a as ih =>
    intro i
    unfold keepAux
    rw [ih (i + 1)]

theorem foldr_eraseIdx_map_succ (js : List Nat) (a : β) (l : List β) :
    (js.map Nat.succ).foldr (fun (i : Nat) (r : List β) => r.eraseIdx i) (a :: l) =
      a :: js.foldr (fun (i : Nat) (r : List β) => r.eraseIdx i) l := by
  induction js with
  | nil => rfl
  | cons j js ih =>
    rw [List.map_cons, List.foldr_cons, ih, List.foldr_cons, List.eraseIdx_cons_succ]

theorem keepAux_cons_shift (p : Nat → Bool) (a : β) (as : List β) :
    keepAux p 0 (a :: as) =
      if p 0 then keepAux (fun j => p (j + 1)) 0 as
      else a :: keepAux (fun j => p (j + 1)) 0 as := by
  have h := keepAux_shift p as 0
  show (if p 0 then keepAux p (0 + 1) as else a :: keepAux p (0 + 1) as) = _
  rw [h]

theorem foldr_eraseIdx_filter_range :
    ∀ (l : List β) (p : Nat → Bool),
      ((List.range l.length).filter p).foldr (fun (i : Nat) (r : List β) => r.eraseIdx i) l =
        keepAux p 0 l := by
  intro l
  induction l with
  | nil => intro p; rfl
  | cons a as ih =>
    intro p
    have hcomp : p ∘ Nat.succ = fun j => p (j + 1) := rfl
    rw [List.length_cons, List.range_succ_eq_map, List.filter_cons, List.filter_map, hcomp,
      keepAux_cons_shift]
    by_cases h0 : p 0
    · rw [if_pos h0, if_pos h0, List.foldr_cons, foldr_eraseIdx_map_succ,
        List.eraseIdx_cons_zero, ih (fun j => p (j + 1))]
    · rw [if_neg h0, if_neg h0, foldr_eraseIdx_map_succ, ih (fun j => p (j + 1))]

theorem mem_keepAux {p : Nat → Bool} {a : β} :
    ∀ {l : List β} {i : Nat}, a ∈ keepAux p i l →
      ∃ j, l[j]? = some a ∧ p (i + j) = false := by
  intro l
  induction l with
  | nil => intro i h; cases h
  | cons b bs ih =>
    intro i h
    unfold keepAux at h
    by_cases h0 : p i
    · rw [if_pos h0] at h
      rcases ih h with ⟨j, hj1, hj2⟩
      exact ⟨j + 1, by simpa using hj1, by rw [← hj2]; ring_nf⟩
    · rw [if_neg h0] at h
      rcases List.mem_cons.1 h with rfl | hmem
      · exact ⟨0, by simp, by simpa using h0⟩
      · rcases ih hmem with ⟨j, hj1, hj2⟩
        exact ⟨j + 1, by simpa using hj1, by rw [← hj2]; ring_nf⟩

theorem items_fst (c : KeylessCache V) (now : Int) :
    (c.items now).1 = keepAux (fun i => c.isExpired (i : Int) now) 0 c.cache := by
  have h1 : (c.items now).1 =
      (((List.range c.cache.length).filter
          (fun (i : Nat) => c.isExpired (i : Int) now)).foldr
        (fun (i : Nat) (s : KeylessCache V) => s.remove (i : Int)) c).cache := by
    unfold KeylessCache.items
    rw [List.foldl_reverse]
  rw [h1, cache_foldr_remove, foldr_eraseIdx_filter_range]

theorem items_snd_cache (c : KeylessCache V) (now : Int) :
    (c.items now).2.cache = (c.items now).1 := rfl

theorem items_excludes {c : KeylessCache V} {i : Nat} {v : V} {now : Int}
    (h : LInv c) (hv : c.cache[i]? = some v)
    (hexp : c.isExpired (i : Int) now = true) : v ∉ (c.items now).1 := by
  rw [items_fst]
  intro hmem
  rcases mem_keepAux hmem with ⟨j, hj1, hj2⟩
  have hi : i < c.cache.length := by
    rcases List.getElem?_eq_some_iff.1 hv with ⟨h1, _⟩
    exact h1
  have hij : i = j := List.getElem?_inj hi h.2.1 (hv.trans hj1.symm)
  rw [← hij] at hj2
  rw [Nat.zero_add] at hj2
  rw [hexp] at hj2
  cases hj2

theorem foldl_delete_cache [DecidableEq K] (ks : List K) :
    ∀ c : Cache K V, ((ks.foldl (fun s k => s.delete k) c)).cache =
      ks.foldl (fun (l : List (K × V)) k => popKey k l) c.cache := by
  induction ks with
  | nil => intro c; rfl
  | cons k ks ih =>
    intro c
    rw [List.foldl_cons, List.foldl_cons, ih]
    rfl

theorem alookup_items_of_expired [DecidableEq K] {c : Cache K V} {k : K} {now : Int}
    (h : c.isExpired k now = true) : alookup k (c.items now).1 = none := by
  unfold Cache.items
  rw [foldl_delete_cache, foldl_popKey_eq_filter, alookup_eq_none]
  intro hmem
  rcases List.mem_map.1 hmem with ⟨p, hp, rfl⟩
  rcases List.mem_filter.1 hp with ⟨hpc, hdec⟩
  rw [decide_eq_true_eq] at hdec
  exact hdec (List.mem_filter.2 ⟨List.mem_map.2 ⟨p, hpc, rfl⟩, h⟩)

theorem items_keyed_snd_cache [DecidableEq K] (c : Cache K V) (now : Int) :
    (c.items now).2.cache = (c.items now).1 := rfl

theorem findIdx?_getElem {p : V → Bool} :
    ∀ {l : List V} {i : Nat}, l.findIdx? p = some i →
      ∃ v, l[i]? = some v ∧ p v = true := by
  intro l
  induction l with
  | nil => intro i h; cases h
  | cons x xs ih =>
    intro i h
    rw [List.findIdx?_cons] at h
    by_cases hx : p x
    · rw [if_pos hx] at h
      rcases Option.some_inj.1 h with rfl
      exact ⟨x, by simp, hx⟩
    · rw [if_neg hx, List.findIdx?_succ] at h
      rcases Option.map_eq_some'.1 h with ⟨j, hj, rfl⟩
      rcases ih hj with ⟨v, hv1, hv2⟩
      exact ⟨v, by simpa using hv1, hv2⟩

theorem zip_map_fst_snd : ∀ (l : List (V × Int)),
    (l.map Prod.fst).zip (l.map Prod.snd) = l := by
  intro l
  induction l with
  | nil => rfl
  | cons p l ih =>
    rw [List.map_cons, List.map_cons, List.zip_cons_cons, ih]

theorem zip_mem_sortCache {c : KeylessCache V}
    (hp : (v, t) ∈ c.cache.zip c.timestamps) :
    (v, t) ∈ c.sortCache.cache.zip c.sortCache.timestamps := by
  unfold KeylessCache.sortCache
  cases hs : c.sortBy with
  | none => exact hp
  | some s =>
    obtain ⟨keyf, rev⟩ := s
    dsimp only
    by_cases hc : c.cache = []
    · rw [if_pos hc]
      exact hp
    · rw [if_neg hc]
      show (v, t) ∈ (List.map Prod.fst _).zip (List.map Prod.snd _)
      rw [zip_map_fst_snd]
      exact (List.perm_insertionSort
        (fun a b => sortRel keyf (rev.getD false) a.1 b.1)
        (c.cache.zip c.timestamps)).mem_iff.2 hp

end KeylessLemmas

/-! ### Read-operation characterisations -/

section ReadLemmas

variable [DecidableEq K] [DecidableEq V]

theorem alookup_popKey_self {k : K} {l : List (K × β)} :
    alookup k (popKey k l) = none := by
  rw [alookup_eq_none]
  intro hmem
  rcases List.mem_map.1 hmem with ⟨p, hp, rfl⟩
  exact (mem_popKey.1 hp).2 rfl

theorem get_present_fresh {c : Cache K V} {key : K} {now : Int} {v : V}
    (hv : alookup key c.cache = some v) (hfresh : c.isExpired key now = false) :
    (c.get key now).1 = some v ∧
      (c.get key now).2.cache.getLast? = some (key, v) ∧
      alookup key (c.get key now).2.timestamps = some now := by
  rcases alookup_eq_some.1 hv with ⟨e, he, he1, he2⟩
  have hk : hasKey key c.cache = true := by
    rw [hasKey, he]
    rfl
  have hkeq : e = (key, v) := by
    cases e
    simp only at he1 he2
    rw [he1, he2]
  unfold Cache.get
  rw [if_pos hk, if_pos (by rw [hfresh]; exact Bool.false_ne_true)]
  refine ⟨?_, ?_, ?_⟩
  · rw [alookup_odMoveToEnd_self he, he2]
  · rw [getLast?_odMoveToEnd he, hkeq]
  · exact alookup_dset_self

theorem get_present_expired {c : Cache K V} {key : K} {now : Int}
    (hk : hasKey key c.cache = true) (hexp : c.isExpired key now = true) :
    c.get key now = (none, c.delete key) := by
  unfold Cache.get
  rw [if_pos hk, if_neg (by rw [hexp]; exact not_not_intro rfl)]

theorem get_absent {c : Cache K V} {key : K} {now : Int}
    (hk : hasKey key c.cache = false) : c.get key now = (none, c) := by
  unfold Cache.get
  rw [if_neg (by rw [hk]; exact Bool.false_ne_true)]

theorem alookup_delete_self {c : Cache K V} {key : K} :
    alookup key (c.delete key).cache = none := by
  unfold Cache.delete
  exact alookup_popKey_self

theorem contains_eq_true_iff {c : Cache K V} {key : K} {now : Int} :
    c.contains key now = true ↔
      hasKey key c.cache = true ∧ c.isExpired key now = false := by
  unfold Cache.contains
  rw [Bool.and_eq_true, Bool.not_eq_true']

theorem get_fst_isSome_eq_contains (c : Cache K V) (key : K) (now : Int) :
    (c.get key now).1.isSome = c.contains key now := by
  cases hk : hasKey key c.cache with
  | false =>
    rw [get_absent hk]
    unfold Cache.contains
    rw [hk]
    rfl
  | true =>
    cases hexp : c.isExpired key now with
    | true =>
      rw [get_present_expired hk hexp]
      unfold Cache.contains
      rw [hk, hexp]
      rfl
    | false =>
      rcases Option.isSome_iff_exists.1 (hk ▸ rfl : (c.cache.find? (keyIs key)).isSome = true)
        with ⟨e, he⟩
      have hv : alookup key c.cache = some e.2 := by
        rw [alookup, he]
        rfl
      rcases get_present_fresh hv hexp with ⟨h1, _, _⟩
      rw [h1]
      unfold Cache.contains
      rw [hk, hexp]
      rfl

theorem keyless_contains_spec {c : KeylessCache V} {v : V} {now : Int} :
    KeylessCache.contains c v now = true ↔
      v ∈ c.sset ∧ ∃ i, c.cache.findIdx? (fun x => decide (x = v)) = some i ∧
        c.isExpired (i : Int) now = false := by
  unfold KeylessCache.contains
  by_cases hv : v ∈ c.sset
  · rw [if_pos hv]
    cases hf : c.cache.findIdx? (fun x => decide (x = v)) with
    | none =>
      simp only [hv, true_and]
      constructor
      · intro h
        cases h
      · rintro ⟨i, hi, _⟩
        cases hi
    | some i =>
      simp only [hv, true_and, Bool.not_eq_true']
      constructor
      · intro h
        exact ⟨i, rfl, h⟩
      · rintro ⟨j, hj, hexp⟩
        rcases Option.some_inj.1 hj with rfl
        exact hexp
  · rw [if_neg hv]
    simp [hv]

theorem normIdx_eq_none {len : Nat} {index : Int}
    (h : ¬ (-(len : Int) ≤ index ∧ index < (len : Int))) : normIdx len index = none := by
  unfold normIdx
  rw [if_neg h]

theorem normIdx_neg {len : Nat} {index : Int} (h1 : -(len : Int) ≤ index)
    (h2 : index < 0) : normIdx len index = some (index + len).toNat := by
  unfold normIdx
  rw [if_pos ⟨h1, by omega⟩, if_pos h2]

theorem keyless_get_oob {c : KeylessCache V} {index now : Int}
    (h : ¬ (-(c.cache.length : Int) ≤ index ∧ index < (c.cache.length : Int))) :
    c.get index now = (none, c) := by
  unfold KeylessCache.get
  rw [if_neg h]

theorem keyless_remove_oob {c : KeylessCache V} {index : Int}
    (h : ¬ (-(c.cache.length : Int) ≤ index ∧ index < (c.cache.length : Int))) :
    c.remove index = c :=
  remove_eq_self (normIdx_eq_none h)

theorem keyless_get_fresh {c : KeylessCache V} {index now : Int}
    (hb : -(c.cache.length : Int) ≤ index ∧ index < (c.cache.length : Int))
    (hfresh : c.isExpired index now = false) :
    c.get index now = (deqGet c.cache index, c) := by
  unfold KeylessCache.get
  rw [if_pos hb, if_pos (by rw [hfresh]; exact Bool.false_ne_true)]

theorem keyless_get_expired {c : KeylessCache V} {index now : Int}
    (hb : -(c.cache.length : Int) ≤ index ∧ index < (c.cache.length : Int))
    (hexp : c.isExpired index now = true) :
    c.get index now = (none, c.remove index) := by
  unfold KeylessCache.get
  rw [if_pos hb, if_neg (by rw [hexp]; exact not_not_intro rfl)]

end ReadLemmas

/-! ### Configuration fields are constant across operations -/

section ConfigLemmas

variable [DecidableEq K] [DecidableEq V]

theorem set_unique {c c' : Cache K V} {key : K} {value : V} {now : Int}
    (hs : c.set key value now = some c') : c'.unique = c.unique := by
  unfold Cache.set at hs
  by_cases hover : (((c.setBody key value now).cache.length : Int) >
      (c.setBody key value now).maxSize)
  · rw [if_pos hover] at hs
    rcases Option.map_eq_some'.1 hs with ⟨p, _, hback⟩
    rw [← hback]
    exact setBody_unique c key value now
  · rw [if_neg hover] at hs
    rcases Option.some_inj.1 hs with rfl
    exact setBody_unique c key value now

theorem get_snd_unique (c : Cache K V) (key : K) (now : Int) :
    (c.get key now).2.unique = c.unique := by
  unfold Cache.get
  by_cases h1 : hasKey key c.cache
  · rw [if_pos h1]
    by_cases h2 : ¬ c.isExpired key now
    · rw [if_pos h2]
    · rw [if_neg h2]
      rfl
  · rw [if_neg h1]

theorem delete_unique (c : Cache K V) (key : K) : (c.delete key).unique = c.unique := rfl

theorem items_snd_unique (c : Cache K V) (now : Int) :
    (c.items now).2.unique = c.unique := by
  unfold Cache.items
  generalize (c.cache.map Prod.fst).filter (fun k => c.isExpired k now) = ks
  induction ks generalizing c with
  | nil => rfl
  | cons k ks ih =>
    rw [List.foldl_cons]
    exact ih (c.delete k)

theorem applyKOp_unique {c c' : Cache K V} {op : KOp K V}
    (hs : applyKOp c op = some c') : c'.unique = c.unique := by
  cases op with
  | set k v now => exact set_unique hs
  | get k now =>
    rcases Option.some_inj.1 hs with rfl
    exact get_snd_unique c k now
  | delete k =>
    rcases Option.some_inj.1 hs with rfl
    rfl
  | clear =>
    rcases Option.some_inj.1 hs with rfl
    rfl
  | items now =>
    rcases Option.some_inj.1 hs with rfl
    exact items_snd_unique c now
  | contains k now =>
    rcases Option.some_inj.1 hs with rfl
    rfl

theorem runK_unique : ∀ (ops : List (KOp K V)) (c c' : Cache K V),
    runK c ops = some c' → c'.unique = c.unique := by
  intro ops
  induction ops with
  | nil =>
    intro c c' hs
    rcases Option.some_inj.1 hs with rfl
    rfl
  | cons op ops ih =>
    intro c c' hs
    unfold runK at hs
    cases happ : applyKOp c op with
    | none => rw [happ] at hs; exact absurd hs (by simp)
    | some c1 =>
      rw [happ] at hs
      exact (ih c1 c' hs).trans (applyKOp_unique happ)

theorem sortCache_of_none {c : KeylessCache V} (h : c.sortBy = none) :
    c.sortCache = c := by
  unfold KeylessCache.sortCache
  rw [h]

theorem remove_sortBy (c : KeylessCache V) (index : Int) :
    (c.remove index).sortBy = c.sortBy := by
  cases hn : normIdx c.cache.length index with
  | none => rw [remove_eq_self hn]
  | some i => rw [remove_eq_removeNat hn, removeNat_sortBy]

theorem get_snd_sortBy (c : KeylessCache V) (index now : Int) :
    (c.get index now).2.sortBy = c.sortBy := by
  rcases get_snd_cases c index now with h1 | h1 <;> rw [h1]
  exact remove_sortBy c index

theorem foldl_remove_sortBy (is : List Nat) :
    ∀ c : KeylessCache V,
      (is.foldl (fun s (i : Nat) => s.remove (i : Int)) c).sortBy = c.sortBy := by
  induction is with
  | nil => intro c; rfl
  | cons i is ih =>
    intro c
    rw [List.foldl_cons, ih]
    exact remove_sortBy c (i : Int)

theorem items_snd_sortBy (c : KeylessCache V) (now : Int) :
    (c.items now).2.sortBy = c.sortBy := by
  unfold KeylessCache.items
  exact foldl_remove_sortBy _ c

theorem applyLOp_sortBy {c c' : KeylessCache V} {op : LOp V}
    (hs : applyLOp c op = some c') : c'.sortBy = c.sortBy := by
  cases op with
  | add v now => exact add_sortBy hs
  | get i now =>
    rcases Option.some_inj.1 hs with rfl
    exact get_snd_sortBy c i now
  | remove i =>
    rcases Option.some_inj.1 hs with rfl
    exact remove_sortBy c i
  | clear =>
    rcases Option.some_inj.1 hs with rfl
    rfl
  | items now =>
    rcases Option.some_inj.1 hs with rfl
    exact items_snd_sortBy c now
  | contains v now =>
    rcases Option.some_inj.1 hs with rfl
    rfl

theorem runL_sortBy : ∀ (ops : List (LOp V)) (c c' : KeylessCache V),
    runL c ops = some c' → c'.sortBy = c.sortBy := by
  intro ops
  induction ops with
  | nil =>
    intro c c' hs
    rcases Option.some_inj.1 hs with rfl
    rfl
  | cons op ops ih =>
    intro c c' hs
    unfold runL at hs
    cases happ : applyLOp c op with
    | none => rw [happ] at hs; exact absurd hs (by simp)
    | some c1 =>
      rw [happ] at hs
      exact (ih c1 c' hs).trans (applyLOp_sortBy happ)

theorem isExpired_eq_true {c : Cache K V} {k : K} {now T : Int}
    (ht : c.ttl = some T) (h : now - (alookup k c.timestamps).getD 0 > T) :
    c.isExpired k now = true := by
  unfold Cache.isExpired
  rw [ht]
  exact decide_eq_true h

theorem keyless_isExpired_eq_true {c : KeylessCache V} {i : Nat} {now T : Int}
    (ht : c.ttl = some T) (hi : i < c.timestamps.length)
    (h : now - (c.timestamps[i]?).getD 0 > T) : c.isExpired (i : Int) now = true := by
  unfold KeylessCache.isExpired
  rw [ht]
  dsimp only
  rw [normIdx_natCast, if_pos hi]
  exact decide_eq_true (by simpa using h)

end ConfigLemmas

/-! ### Claim theorems -/

/-- C1: the claim states that the cardinality of either cache never exceeds
`max_size` after a mutating operation, the unkeyed `add` evicting until one
slot is free before appending.  The code violates this: `KeylessCache.add`
guards with `len >= max_size` but `_delete_oversize` only pops while
`len > max_size`, so adding a second distinct value to a `max_size = 1`
cache frees no slot and leaves 2 entries — length `max_size + 1`. -/
theorem C1_unkeyed_size_bound_violated :
    (((KeylessCache.init (V := Nat) 1 none none).add 10 0).bind
        (fun s1 => s1.add 20 1)).map
      (fun s2 => ((s2.length : Int), s2.maxSize, s2.cache)) =
      some (2, 1, [10, 20]) := by
  rfl

/-- C2 counterexample: the claim states that an invalid configuration such as
a negative `max_size` is rejected at construction time with a configuration
error.  It is not: both constructors are total and store `max_size = -1`
verbatim, performing no validation. -/
theorem C2_construction_not_rejected :
    Cache.init (K := Nat) (V := Nat) (-1) none true =
      { maxSize := -1, ttl := none, unique := true, cache := [], timestamps := [] } ∧
    KeylessCache.init (V := Nat) (-1) none none =
      { maxSize := -1, ttl := none, sortBy := none, cache := [], timestamps := [],
        sset := [] } :=
  ⟨rfl, rfl⟩

/-- C2 amended: construction never rejects any configuration — both
constructors store the given `max_size` without validation and raise nothing;
a negative `max_size` instead makes the first insertion fail at runtime
(`popitem`/`popleft` on an emptied container). -/
theorem C2_amended_no_construction_validation :
    (∀ (m : Int) (t : Option Int) (u : Bool),
        (Cache.init (K := Nat) (V := Nat) m t u).maxSize = m ∧
        (Cache.init (K := Nat) (V := Nat) m t u).cache = []) ∧
    (∀ (m : Int) (t : Option Int) (srt : Option ((Nat → Int) × Option Bool)),
        (KeylessCache.init (V := Nat) m t srt).maxSize = m ∧
        (KeylessCache.init (V := Nat) m t srt).cache = []) ∧
    (Cache.init (K := Nat) (V := Nat) (-1) none true).set 0 0 0 = none ∧
    (KeylessCache.init (V := Nat) (-1) none none).add 0 0 = none := by
  refine ⟨fun m t u => ⟨rfl, rfl⟩, fun m t srt => ⟨rfl, rfl⟩, ?_, ?_⟩ <;> rfl

/-- C3: with `unique = true`, after any sequence of operations no two
distinct keys hold equal values, and in the spec's scenario
(`max_size = 2`, `ttl = 0`, `unique = true`; `set("a",1)` then `set("b",1)`)
`get("a")` is absent and `get("b")` returns `1`. -/
theorem C3_keyed_value_uniqueness :
    (∀ {K V : Type} [DecidableEq K] [DecidableEq V] (m : Int) (t : Option Int)
        (ops : List (KOp K V)) (c' : Cache K V),
        runK (Cache.init m t true) ops = some c' →
        ∀ k1 k2 v1 v2, k1 ≠ k2 → alookup k1 c'.cache = some v1 →
          alookup k2 c'.cache = some v2 → v1 ≠ v2) ∧
    ((runK (Cache.init (K := String) (V := Nat) 2 (some 0) true)
        [KOp.set "a" 1 0, KOp.set "b" 1 1]).map
      (fun s => ((s.get "a" 2).1, (s.get "b" 2).1)) = some (none, some 1)) := by
  constructor
  · intro K V instK instV m t ops c' hrun k1 k2 v1 v2 hne h1 h2
    have hgood := runK_kgood ops _ c' (kgood_init m t true) hrun
    have huniq : c'.unique = true := by
      rw [runK_unique ops _ c' hrun]
      rfl
    have hvals : c'.cache.Pairwise (fun a b => a.2 ≠ b.2) := hgood.2 huniq
    rcases alookup_eq_some.1 h1 with ⟨e1, he1, he1k, he1v⟩
    rcases alookup_eq_some.1 h2 with ⟨e2, he2, he2k, he2v⟩
    have hm1 : e1 ∈ c'.cache := List.mem_of_find?_eq_some he1
    have hm2 : e2 ∈ c'.cache := List.mem_of_find?_eq_some he2
    have hne12 : e1 ≠ e2 := by
      intro heq
      rw [heq] at he1k
      exact hne (he1k.symm.trans he2k)
    have hval := List.Pairwise.forall valsNe_symm hvals hm1 hm2 hne12
    rw [he1v, he2v] at hval
    exact hval
  · rfl

/-- C3 witness: the uniqueness theorem applied to the concrete run
`set(1 ↦ 10)`, `set(2 ↦ 20)` on a fresh unique cache. -/
theorem C3_keyed_value_uniqueness_witness : (10 : Nat) ≠ 20 :=
  C3_keyed_value_uniqueness.1 (K := Nat) (V := Nat) 2 none
    [KOp.set 1 10 0, KOp.set 2 20 1]
    { maxSize := 2, ttl := none, unique := true,
      cache := [(1, 10), (2, 20)], timestamps := [(1, 0), (2, 1)] }
    (by rfl) 1 2 10 20 (by decide) (by rfl) (by rfl)

/-- C10: internal bookkeeping stays consistent after every operation: the
keyed `_cache` and `_timestamps` dicts always hold the same key set; the
unkeyed `_cache` and `_timestamps` deques always have equal length and
`_set` holds exactly the values of the sequence. -/
theorem C10_bookkeeping_consistent :
    (∀ {K V : Type} [DecidableEq K] [DecidableEq V] (m : Int) (t : Option Int)
        (u : Bool) (ops : List (KOp K V)) (c' : Cache K V),
        runK (Cache.init m t u) ops = some c' →
        ∀ k, k ∈ c'.cache.map Prod.fst ↔ k ∈ c'.timestamps.map Prod.fst) ∧
    (∀ {V : Type} [DecidableEq V] (m : Int) (t : Option Int)
        (srt : Option ((V → Int) × Option Bool)) (ops : List (LOp V))
        (c' : KeylessCache V),
        runL (KeylessCache.init m t srt) ops = some c' →
        c'.cache.length = c'.timestamps.length ∧
          ∀ v, v ∈ c'.sset ↔ v ∈ c'.cache) := by
  constructor
  · intro K V instK instV m t u ops c' hrun
    exact (runK_kgood ops _ c' (kgood_init m t u) hrun).1.2.2
  · intro V instV m t srt ops c' hrun
    have h := (runL_lgood ops _ c' (lgood_init m t srt) hrun).1
    exact ⟨h.1, h.2.2⟩

/-- C4: the unkeyed cache never holds two entries that compare equal — after
any operation sequence the value sequence is duplicate-free — and re-adding
an equal value refreshes that entry's stored timestamp in place without
growing: after a second `add` of the same value, `length` is unchanged, the
value is stored paired with the new timestamp, and without a sort function
nothing else changes — the value sequence is identical and the timestamp
sequence is the old one updated in place at the value's index. -/
theorem C4_unkeyed_dedup :
    (∀ {V : Type} [DecidableEq V] (m : Int) (t : Option Int)
        (srt : Option ((V → Int) × Option Bool)) (ops : List (LOp V))
        (c' : KeylessCache V),
        runL (KeylessCache.init m t srt) ops = some c' → c'.cache.Nodup) ∧
    (∀ {V : Type} [DecidableEq V] (s s1 s2 : KeylessCache V) (v : V) (n1 n2 : Int),
        LInv s → s.add v n1 = some s1 → s1.add v n2 = some s2 →
          s2.length = s1.length ∧
          (v, n2) ∈ s2.cache.zip s2.timestamps ∧
          (s.sortBy = none →
            ∃ idx, s1.cache.findIdx? (fun x => decide (x = v)) = some idx ∧
              s2.cache = s1.cache ∧
              s2.timestamps = s1.timestamps.set idx n2)) := by
  constructor
  · intro V instV m t srt ops c' hrun
    exact (runL_lgood ops _ c' (lgood_init m t srt) hrun).1.2.1
  · intro V instV s s1 s2 v n1 n2 hinv hs1 hs2
    rcases linv_add hinv hs1 with ⟨hinv1, hv1⟩
    have hvs : v ∈ s1.sset := (hinv1.2.2 v).2 hv1
    unfold KeylessCache.add at hs2
    rw [if_pos hvs] at hs2
    rcases findIdx?_isSome_of_mem hv1 with ⟨idx, hf⟩
    rw [hf] at hs2
    rcases Option.some_inj.1 hs2 with rfl
    have hmidlen : ({ s1 with timestamps := s1.timestamps.set idx n2 }
        : KeylessCache V).cache.length =
        ({ s1 with timestamps := s1.timestamps.set idx n2 }
          : KeylessCache V).timestamps.length := by
      simpa [List.length_set] using hinv1.1
    refine ⟨?_, ?_, ?_⟩
    · unfold KeylessCache.length
      rw [(sortCache_cache_perm hmidlen).length_eq]
    · rcases findIdx?_getElem hf with ⟨w, hw1, hw2⟩
      rcases of_decide_eq_true hw2 with rfl
      have hidx : idx < s1.cache.length := by
        rcases List.getElem?_eq_some_iff.1 hw1 with ⟨h1, _⟩
        exact h1
      have hts : (s1.timestamps.set idx n2)[idx]? = some n2 :=
        List.getElem?_set_self (hinv1.1 ▸ hidx)
      refine zip_mem_sortCache (List.mem_iff_getElem?.2 ⟨idx, ?_⟩)
      exact List.getElem?_zip_eq_some.2 ⟨hw1, hts⟩
    · intro hnone
      have hmidnone : ({ s1 with timestamps := s1.timestamps.set idx n2 }
          : KeylessCache V).sortBy = none := by
        rw [show ({ s1 with timestamps := s1.timestamps.set idx n2 }
          : KeylessCache V).sortBy = s1.sortBy from rfl, add_sortBy hs1]
        exact hnone
      rw [sortCache_of_none hmidnone]
      exact ⟨idx, hf, rfl, rfl⟩

/-- C4 witness: the dedup theorem applied to two successive `add 5` calls on
a fresh cache (timestamps `0` then `1`): the length is unchanged, `5` is now
stored with timestamp `1`, and the refresh happened in place at index `0`. -/
theorem C4_unkeyed_dedup_witness :
    (KeylessCache.mk (V := Nat) 100 none none [5] [1] [5]).length =
        (KeylessCache.mk (V := Nat) 100 none none [5] [0] [5]).length ∧
      ((5 : Nat), (1 : Int)) ∈
        (KeylessCache.mk (V := Nat) 100 none none [5] [1] [5]).cache.zip
          (KeylessCache.mk (V := Nat) 100 none none [5] [1] [5]).timestamps ∧
      ((KeylessCache.init (V := Nat) 100 none none).sortBy = none →
        ∃ idx, (KeylessCache.mk (V := Nat) 100 none none [5] [0] [5]).cache.findIdx?
            (fun x => decide (x = 5)) = some idx ∧
          (KeylessCache.mk (V := Nat) 100 none none [5] [1] [5]).cache =
            (KeylessCache.mk (V := Nat) 100 none none [5] [0] [5]).cache ∧
          (KeylessCache.mk (V := Nat) 100 none none [5] [1] [5]).timestamps =
            (KeylessCache.mk (V := Nat) 100 none none [5] [0] [5]).timestamps.set idx 1) :=
  C4_unkeyed_dedup.2 (KeylessCache.init 100 none none)
    (KeylessCache.mk 100 none none [5] [0] [5])
    (KeylessCache.mk 100 none none [5] [1] [5])
    5 0 1 ⟨rfl, List.nodup_nil, fun v => Iff.rfl⟩ (by rfl) (by rfl)

/-- C5: with `ttl = T > 0` configured, an entry whose age (`now` minus its
stored timestamp) exceeds `T` is never returned: a keyed `get` is absent and
purges the entry, keyed `items` excludes it (and its purging state agrees),
an unkeyed `get` at its index is absent and erases the entry, and unkeyed
`items` excludes it — all at the moment of the read, with no timer. -/
theorem C5_ttl_expiry :
    (∀ {K V : Type} [DecidableEq K] [DecidableEq V] (c : Cache K V) (k : K)
        (now T : Int), 0 < T → c.ttl = some T →
        now - (alookup k c.timestamps).getD 0 > T →
          (c.get k now).1 = none ∧ alookup k (c.get k now).2.cache = none ∧
          alookup k (c.items now).1 = none ∧
          alookup k (c.items now).2.cache = none) ∧
    (∀ {V : Type} [DecidableEq V] (c : KeylessCache V) (i : Nat) (v : V)
        (now T : Int), LInv c → 0 < T → c.ttl = some T →
        c.cache[i]? = some v → now - (c.timestamps[i]?).getD 0 > T →
          (c.get (i : Int) now).1 = none ∧
          (c.get (i : Int) now).2.cache = c.cache.eraseIdx i ∧
          v ∉ (c.items now).1 ∧ v ∉ (c.items now).2.cache) := by
  constructor
  · intro K V instK instV c k now T _ httl hage
    have hexp : c.isExpired k now = true := isExpired_eq_true httl hage
    have hitems : alookup k (c.items now).1 = none := alookup_items_of_expired hexp
    refine ⟨?_, ?_, hitems, ?_⟩
    · cases hk : hasKey k c.cache with
      | true => rw [get_present_expired hk hexp]
      | false => rw [get_absent hk]
    · cases hk : hasKey k c.cache with
      | true =>
        rw [get_present_expired hk hexp]
        exact alookup_delete_self
      | false =>
        rw [get_absent hk]
        exact alookup_eq_none.2 (hasKey_eq_false.1 hk)
    · rw [items_keyed_snd_cache]
      exact hitems
  · intro V instV c i v now T hinv _ httl hget hage
    have hi : i < c.cache.length := by
      rcases List.getElem?_eq_some_iff.1 hget with ⟨h1, _⟩
      exact h1
    have hits : i < c.timestamps.length := hinv.1 ▸ hi
    have hexp : c.isExpired (i : Int) now = true :=
      keyless_isExpired_eq_true httl hits hage
    have hb : -(c.cache.length : Int) ≤ (i : Int) ∧
        (i : Int) < (c.cache.length : Int) := by omega
    have hitems : v ∉ (c.items now).1 := items_excludes hinv hget hexp
    refine ⟨?_, ?_, hitems, ?_⟩
    · rw [keyless_get_expired hb hexp]
    · rw [keyless_get_expired hb hexp]
      show (c.remove (i : Int)).cache = _
      rw [remove_natCast, removeNat_cache]
    · rw [items_snd_cache]
      exact hitems

/-- C5 witness: the keyed half applied to a cache with `ttl = 1` holding key
`0` stamped at time `0`, read at time `5`. -/
theorem C5_ttl_expiry_witness :
    ((Cache.mk 10 (some 1) true [(0, 7)] [(0, 0)] : Cache Nat Nat).get 0 5).1 = none ∧
    alookup 0 ((Cache.mk 10 (some 1) true [(0, 7)] [(0, 0)] : Cache Nat Nat).get 0 5).2.cache
      = none ∧
    alookup 0 ((Cache.mk 10 (some 1) true [(0, 7)] [(0, 0)] : Cache Nat Nat).items 5).1
      = none ∧
    alookup 0 ((Cache.mk 10 (some 1) true [(0, 7)] [(0, 0)] : Cache Nat Nat).items 5).2.cache
      = none :=
  C5_ttl_expiry.1 (Cache.mk 10 (some 1) true [(0, 7)] [(0, 0)]) 0 5 1
    (by decide) rfl (by decide)

/-- C6: keyed `get` behaves exactly as specified — present and fresh:
timestamp refreshed to `now`, entry promoted to the most-recently-used (last)
position, value returned; present but expired: entry deleted, absent
returned; absent: state unchanged, absent returned.  Consequently with
`max_size = 2`, `set A; set B; get A; set C` evicts `B` and keeps `A`. -/
theorem C6_keyed_get_spec :
    (∀ {K V : Type} [DecidableEq K] [DecidableEq V] (c : Cache K V) (k : K)
        (now : Int) (v : V),
        alookup k c.cache = some v → c.isExpired k now = false →
          (c.get k now).1 = some v ∧
          (c.get k now).2.cache.getLast? = some (k, v) ∧
          alookup k (c.get k now).2.timestamps = some now) ∧
    (∀ {K V : Type} [DecidableEq K] [DecidableEq V] (c : Cache K V) (k : K)
        (now : Int),
        hasKey k c.cache = true → c.isExpired k now = true →
          c.get k now = (none, c.delete k) ∧
          alookup k (c.get k now).2.cache = none) ∧
    (∀ {K V : Type} [DecidableEq K] [DecidableEq V] (c : Cache K V) (k : K)
        (now : Int),
        alookup k c.cache = none → c.get k now = (none, c)) ∧
    ((runK (Cache.init (K := String) (V := Nat) 2 none true)
        [KOp.set "A" 1 0, KOp.set "B" 2 1, KOp.get "A" 2, KOp.set "C" 3 3]).map
      (fun s => (alookup "B" s.cache, alookup "A" s.cache, alookup "C" s.cache)) =
      some (none, some 1, some 3)) := by
  refine ⟨?_, ?_, ?_, ?_⟩
  · intro K V instK instV c k now v hv hfresh
    exact get_present_fresh hv hfresh
  · intro K V instK instV c k now hk hexp
    refine ⟨get_present_expired hk hexp, ?_⟩
    rw [get_present_expired hk hexp]
    exact alookup_delete_self
  · intro K V instK instV c k now hv
    exact get_absent (hasKey_eq_false.2 (alookup_eq_none.1 hv))
  · rfl

/-- C6 witness: the present-and-fresh case applied to a singleton cache read
at time `5`. -/
theorem C6_keyed_get_spec_witness :
    ((Cache.mk 10 none true [(0, 7)] [(0, 0)] : Cache Nat Nat).get 0 5).1 = some 7 ∧
    ((Cache.mk 10 none true [(0, 7)] [(0, 0)] : Cache Nat Nat).get 0 5).2.cache.getLast?
      = some (0, 7) ∧
    alookup 0 ((Cache.mk 10 none true [(0, 7)] [(0, 0)] : Cache Nat Nat).get 0 5).2.timestamps
      = some 5 :=
  C6_keyed_get_spec.1 (Cache.mk 10 none true [(0, 7)] [(0, 0)]) 0 5 7 (by rfl) (by rfl)

/-- C7: with a sort function configured, the value sequence is ordered by
that function (with the configured direction) after any sequence of
operations; in particular adding values with numeric fields `5, 1, 3` (as
first components, ascending sort on the first component) yields `items()`
ordered `1, 3, 5`. -/
theorem C7_sort_reapplied :
    (∀ {V : Type} [DecidableEq V] (m : Int) (t : Option Int) (keyf : V → Int)
        (rev : Option Bool) (ops : List (LOp V)) (c' : KeylessCache V),
        runL (KeylessCache.init m t (some (keyf, rev))) ops = some c' →
        c'.cache.Pairwise (sortRel keyf (rev.getD false))) ∧
    ((runL (KeylessCache.init (V := Int × Int) 100 none (some (fun v => v.1, none)))
        [LOp.add (5, 50) 0, LOp.add (1, 10) 1, LOp.add (3, 30) 2]).map
      (fun s => (s.items 3).1) = some [(1, 10), (3, 30), (5, 50)]) := by
  constructor
  · intro V instV m t keyf rev ops c' hrun
    have hgood := runL_lgood ops _ c' (lgood_init m t (some (keyf, rev))) hrun
    have hsort : c'.sortBy = some (keyf, rev) := by
      rw [runL_sortBy ops _ c' hrun]
      rfl
    have h := hgood.2
    unfold SortOk at h
    rw [hsort] at h
    exact h
  · rfl

/-- C7 witness: sortedness after the concrete run `add 3; add 1` with the
identity key function, ascending. -/
theorem C7_sort_reapplied_witness :
    ([1, 3] : List Int).Pairwise (sortRel (fun v => v) ((none : Option Bool).getD false)) :=
  C7_sort_reapplied.1 100 none (fun v => v) none [LOp.add 3 0, LOp.add 1 1]
    (KeylessCache.mk 100 none (some (fun v => v, none)) [1, 3] [1, 0] [3, 1])
    (by rfl)

/-- C8: the contains check treats an expired entry as purged (false) and is
true exactly when `get` would return a value (keyed) / when an equal,
non-expired value is present (unkeyed, under the bookkeeping invariant) —
and unlike `get`/`items` it leaves the entire cache state unchanged. -/
theorem C8_contains_pure :
    (∀ {K V : Type} [DecidableEq K] [DecidableEq V] (c : Cache K V) (k : K)
        (now : Int),
        (c.contains k now = true ↔
          hasKey k c.cache = true ∧ c.isExpired k now = false) ∧
        (c.get k now).1.isSome = c.contains k now ∧
        applyKOp c (KOp.contains k now) = some c) ∧
    (∀ {V : Type} [DecidableEq V] (c : KeylessCache V) (v : V) (now : Int),
        (LInv c → (KeylessCache.contains c v now = true ↔
          v ∈ c.cache ∧ ∃ i, c.cache.findIdx? (fun x => decide (x = v)) = some i ∧
            c.isExpired (i : Int) now = false)) ∧
        applyLOp c (LOp.contains v now) = some c) := by
  constructor
  · intro K V instK instV c k now
    exact ⟨contains_eq_true_iff, get_fst_isSome_eq_contains c k now, rfl⟩
  · intro V instV c v now
    refine ⟨?_, rfl⟩
    intro hinv
    rw [keyless_contains_spec]
    constructor
    · rintro ⟨hsset, i, hf, hexp⟩
      exact ⟨(hinv.2.2 v).1 hsset, i, hf, hexp⟩
    · rintro ⟨hcache, i, hf, hexp⟩
      exact ⟨(hinv.2.2 v).2 hcache, i, hf, hexp⟩

/-- C8 witness: the unkeyed characterisation applied to a concrete singleton
cache satisfying the bookkeeping invariant. -/
theorem C8_contains_pure_witness :
    (KeylessCache.contains (KeylessCache.mk (V := Nat) 10 none none [7] [0] [7]) 7 1 = true ↔
      (7 : Nat) ∈ ([7] : List Nat) ∧
        ∃ i, ([7] : List Nat).findIdx? (fun x => decide (x = 7)) = some i ∧
          (KeylessCache.mk (V := Nat) 10 none none [7] [0] [7]).isExpired (i : Int) 1
            = false) :=
  (C8_contains_pure.2 (KeylessCache.mk 10 none none [7] [0] [7]) 7 1).1
    ⟨rfl, by decide, fun v => Iff.rfl⟩

/-- C9: unkeyed indexing is bounds-checked against the current length with
negative indices counting from the end: an out-of-range index makes `remove`
a silent no-op and `get` an absent result with the state unchanged (both
operations are total — nothing is raised), while a negative in-range index
reads the element at `length + index`. -/
theorem C9_index_bounds :
    (∀ {V : Type} [DecidableEq V] (c : KeylessCache V) (index now : Int),
        (index < -(c.cache.length : Int) ∨ (c.cache.length : Int) ≤ index) →
          c.remove index = c ∧ c.get index now = (none, c)) ∧
    (∀ {V : Type} [DecidableEq V] (c : KeylessCache V) (index now : Int),
        -(c.cache.length : Int) ≤ index → index < 0 →
        c.isExpired index now = false →
          c.get index now = (c.cache[(index + c.cache.length).toNat]?, c)) := by
  constructor
  · intro V instV c index now h
    have hb : ¬ (-(c.cache.length : Int) ≤ index ∧ index < (c.cache.length : Int)) := by
      omega
    exact ⟨keyless_remove_oob hb, keyless_get_oob hb⟩
  · intro V instV c index now h1 h2 hfresh
    have hb : -(c.cache.length : Int) ≤ index ∧ index < (c.cache.length : Int) :=
      ⟨h1, by omega⟩
    rw [keyless_get_fresh hb hfresh]
    unfold deqGet
    rw [normIdx_neg h1 h2]
    rfl

/-- C9 witness: the out-of-range case applied to a three-element cache at
index `5`. -/
theorem C9_index_bounds_witness :
    (KeylessCache.mk (V := Nat) 10 none none [1, 2, 3] [0, 0, 0] [1, 2, 3]).remove 5 =
        KeylessCache.mk (V := Nat) 10 none none [1, 2, 3] [0, 0, 0] [1, 2, 3] ∧
      (KeylessCache.mk (V := Nat) 10 none none [1, 2, 3] [0, 0, 0] [1, 2, 3]).get 5 0 =
        (none, KeylessCache.mk (V := Nat) 10 none none [1, 2, 3] [0, 0, 0] [1, 2, 3]) :=
  C9_index_bounds.1 (KeylessCache.mk 10 none none [1, 2, 3] [0, 0, 0] [1, 2, 3]) 5 0
    (by decide)

/-- C10 witness: bookkeeping consistency at the concrete keyed run
`set(1 ↦ 10)`, `set(2 ↦ 20)`. -/
theorem C10_bookkeeping_consistent_witness :
    ∀ k : Nat, k ∈ ([(1, 10), (2, 20)] : List (Nat × Nat)).map Prod.fst ↔
      k ∈ ([(1, 0), (2, 1)] : List (Nat × Int)).map Prod.fst :=
  C10_bookkeeping_consistent.1 (K := Nat) (V := Nat) 2 none true
    [KOp.set 1 10 0, KOp.set 2 20 1]
    { maxSize := 2, ttl := none, unique := true,
      cache := [(1, 10), (2, 20)], timestamps := [(1, 0), (2, 1)] }
    (by rfl)

end PRC
